import Mathlib

/-!
Verification of the Novelist-Tools-v2 core against its design specification.

The embedding models the two verified components of the single TypeScript
source file (src/unnamed/part_000):
  - the hierarchical find/replace engine over a loaded project backup record
    (findNextMatchInternal, findPreviousMatchInternal, handleFindNextMatch,
    handleReplaceMatch, handleReplaceAllMatches), and
  - the EPUB document structure resolver and chapter extraction pipeline
    (resolvePath, findOpfPath, findTocHref, extractChaptersFromNcx,
    extractChaptersFromNav, deduplicateChapters, getChapterListFromEpub,
    handleExtractChapters).

Modelling conventions, used throughout and noted again at each definition:
  - JavaScript strings are modelled as lists of characters (abbrev Str),
    indices as Nat after the clamping the source performs; pointer fields,
    which the source stores as JS numbers that may be negative, are Int.
    (A NaN or non-numeric pointer field is outside the Int model; the source
    treats it exactly like a negative value, via the same reset branch.)
  - The JS RegExp object is an external platform facility; it is abstracted
    as a JsRegex value (an exec function) produced by a compile oracle of
    type Str -> Option JsRegex, where none models a throwing constructor.
  - JSON.parse on a scene text field is abstracted by storing the parse
    outcome in the scene (SceneText): invalid models a non-string, blank or
    unparsable text, noBlocks models a parse result whose blocks field is
    not an array, parsed bs models a successful parse.
  - DOM documents are abstracted by structures holding exactly the facets
    the source queries (XmlDocM, NavDocM); the XML/HTML parsers are oracles.
-/

/-- A JavaScript string, modelled as its list of characters. -/
abbrev Str := List Char

/-- Converts a Lean string literal to the Str model. -/
def str (s : String) : Str := s.data

/-- Decides whether pattern p occurs in t at index i (a full occurrence). -/
def matchAt (t p : Str) (i : Nat) : Bool := decide ((t.drop i).take p.length = p)

/-- All indices at which p occurs in t, in ascending order. -/
def occs (t p : Str) : List Nat :=
  (List.range (t.length + 1)).filter (fun i => matchAt t p i)

/-- Model of String.prototype.indexOf(p, s) for a non-negative start index:
the least occurrence index that is at least s, or none.  For the empty
pattern JS returns min s t.length; the source only ever calls indexOf with a
non-empty pattern (the empty literal pattern is filtered out beforehand),
but the model keeps the JS behaviour. -/
def jsIndexOf (t p : Str) (s : Nat) : Option Nat :=
  if p = [] then some (min s t.length)
  else (occs t p).find? (fun k => decide (s ≤ k))

/-- JS whitespace test, restricted to the ASCII whitespace characters that
occur in the verified data (the source uses the regex class backslash-s,
which also covers rarer Unicode whitespace; the restriction only narrows
the modelled input alphabet, not the behaviour on it). -/
def isJsWs (c : Char) : Bool :=
  c = ' ' ∨ c = '\t' ∨ c = '\n' ∨ c = '\r'

/-- Model of String.prototype.trim. -/
def trimStr (s : Str) : Str :=
  ((s.dropWhile isJsWs).reverse.dropWhile isJsWs).reverse

/-- Worker of collapseWs: inRun remembers that the previous character was
whitespace already emitted as the single space of its run. -/
def collapseWsGo : Str → Bool → Str
  | [], _ => []
  | c :: cs, inRun =>
    if isJsWs c then
      if inRun then collapseWsGo cs true else ' ' :: collapseWsGo cs true
    else c :: collapseWsGo cs false

/-- Model of s.replace(whitespace-run regex, single space): collapses every
maximal run of whitespace to one space character. -/
def collapseWs (s : Str) : Str := collapseWsGo s false

/-- Model of s.split(newline): JS split always yields at least one piece. -/
def splitNl : Str → List Str
  | [] => [[]]
  | c :: cs =>
    match splitNl cs with
    | [] => [[]]
    | l :: ls => if c = '\n' then [] :: l :: ls else (c :: l) :: ls

/-- Model of lines.join(newline). -/
def joinNl (lines : List Str) : Str := List.intercalate [ '\n' ] lines

/-- Model of Number.MAX_SAFE_INTEGER. -/
def jsMaxSafeInteger : Int := 2 ^ 53 - 1

/-- Model of the JS coercion the source applies to a possibly negative
index before using it (negative becomes 0); Int.toNat is exactly that. -/
def clampNat (x : Int) : Nat := x.toNat

/-! Data model of the project backup record (interfaces Scene, Revision,
BackupData and the engine state types, source lines 24-71).  Fields the
verified operations never read or write (scene code, ranking, status, the
revision book_progresses, statuses and sections arrays, and the top level
version/code/title/description/flags) are carried where cheap and omitted
where they would only add noise; omissions are noted per structure. -/

/-- One element of a parsed blocks array.
  - textBlock models an object with type "text" and a string text field
    (the align attribute is carried so re-serialization preserves it);
  - other models any other non-null element (an object of another type, or
    a primitive); it carries the value of its text property when that is a
    string, because handleReplaceMatch reads and writes block.text without
    checking the block type;
  - nullish models a null element, on which any property access throws. -/
inductive Block where
  | textBlock (align : String) (text : Str)
  | other (textF : Option Str)
  | nullish
deriving Repr, DecidableEq

/-- Outcome of JSON.parse on a scene text field, as the engine observes it:
invalid when the text is not a string, is blank (trim gives the empty
string) or JSON.parse throws; noBlocks when the parse succeeds but the
blocks field is not an array; parsed bs on success. -/
inductive SceneText where
  | invalid
  | noBlocks
  | parsed (blocks : List Block)
deriving Repr, DecidableEq

/-- A scene of the backup record (source interface Scene).  The code,
ranking and status fields are never read by the verified operations and are
omitted; title is the scene title (the empty string models a falsy title,
for which the engine substitutes a positional name). -/
structure Scene where
  title : String
  text : SceneText
deriving Repr, DecidableEq

/-- A revision (source interface Revision).  Only the date and scenes
fields are read or written by the verified operations; number is carried,
book_progresses, statuses and sections are opaque to the engine and
omitted. -/
structure Revision where
  number : Int
  date : Int
  scenes : List Scene
deriving Repr, DecidableEq

/-- The backup record (source interface BackupData).  The verified
operations read revisions and write the two date fields; the remaining
top level fields are carried for shape. -/
structure BackupData where
  version : Int
  code : String
  title : String
  description : String
  last_update_date : Int
  last_backup_date : Int
  revisions : List Revision
deriving Repr, DecidableEq

/-- The find/replace cursor (source interface FindReplacePointer).  Fields
are JS numbers that the engine compares and clamps, so they are Int here. -/
structure FindReplacePointer where
  scene : Int
  block : Int
  offset : Int
deriving Repr, DecidableEq

/-- A match result (source interface FindReplaceMatch). -/
structure FindReplaceMatch where
  sceneIndex : Nat
  blockIndex : Nat
  matchIndex : Nat
  matchLength : Nat
  chapterTitle : String
  matchLine : Str
deriving Repr, DecidableEq

/-- Abstract JS RegExp compiled with the g flag: execFrom t pos models one
exec call with lastIndex set to pos, returning the match index and length.
A well behaved engine returns an index at least pos; the embedding does not
assume this except where the source itself would not terminate otherwise
(fuel bounds are noted at those definitions). -/
structure JsRegex where
  execFrom : Str → Nat → Option (Nat × Nat)

/-- The engine state owned by the React component: the loaded record
(frData), the cursor ref (frPtrRef.current) and the last match ref
(frMatchRef.current). -/
structure FrState where
  frData : Option BackupData
  frPtr : FindReplacePointer
  frMatch : Option FindReplaceMatch
deriving Repr, DecidableEq

/-! Forward search: findNextMatchInternal, source lines 830-922.  The two
nested for loops with their i equals tempPtr.scene and j equals
tempPtr.block comparisons are translated into structural recursions over
the scene and block lists carrying the absolute index; the in-loop
mutations of tempPtr (resetting block and offset to 0 once the start scene
or start block has been passed) have, in the source, no other effect than
making those comparisons fail for every later iteration, which the
translation realises by comparing against the start indices directly.
A negative start block makes the JS loop iterate over negative indices
where blocks of j is undefined and is skipped; the translation starts at
index 0 with the resume offset not applying there, which is the same
behaviour. -/

/-- Result of one findNext/findPrevious call as the component observes it:
the returned match (null modelled as none), the value of frPtrRef.current
after the call (updated only when a match is returned), and whether a
Regex Error toast was shown (the catch branches at source lines 895-898
and 990-993). -/
structure FindInternalResult where
  found : Option FindReplaceMatch
  ptrAfter : FindReplacePointer
  regexToast : Bool
deriving Repr

/-- Outcome of examining one block in the forward scan. -/
inductive BScanOut where
  | foundB (j idx len : Nat) (t : Str)
  | miss
  | err
deriving Repr

/-- Outcome of the forward scene scan. -/
inductive ScanOut where
  | foundS (i j idx len : Nat) (t : Str) (title : String)
  | done
  | err
deriving Repr

/-- The blocks the finder iterates over for one scene: none when the scene
is skipped (source lines 840-852: missing or blank text, or JSON.parse
throwing), the empty list when the parsed blocks field is not an array. -/
def sceneBlocks? (s : Scene) : Option (List Block) :=
  match s.text with
  | .invalid => none
  | .noBlocks => some []
  | .parsed bs => some bs

/-- One block of the forward scan, source lines 855-898: non-text blocks
are skipped; a search start at or past the end of a non-empty text is
skipped; the empty literal pattern is skipped; otherwise the literal branch
runs indexOf and the regex branch compiles and runs exec (a throwing
constructor is the err outcome). -/
def tryBlockNext (compile : Str → Option JsRegex) (pattern : Str) (useRegex : Bool)
    (b : Block) (searchStart : Nat) : BScanOut :=
  match b with
  | .nullish => .miss
  | .other _ => .miss
  | .textBlock _ t =>
    if t.length ≤ searchStart ∧ 0 < t.length then .miss
    else if pattern = [] ∧ useRegex = false then .miss
    else if useRegex then
      match compile pattern with
      | none => .err
      | some r =>
        match r.execFrom t searchStart with
        | some (idx, len) => .foundB 0 idx len t
        | none => .miss
    else
      match jsIndexOf t pattern searchStart with
      | some idx => .foundB 0 idx pattern.length t
      | none => .miss

/-- Forward scan over the blocks of one scene from absolute index j; rb and
ro are the cursor block and offset, applied only at the block whose index
equals rb and only when resume is true (the scene is the cursor scene). -/
def scanBlocksNext (compile : Str → Option JsRegex) (pattern : Str) (useRegex : Bool)
    (resume : Bool) (rb ro : Int) : List Block → Nat → BScanOut
  | [], _ => .miss
  | b :: rest, j =>
    let searchStart : Nat := if resume ∧ (j : Int) = rb then clampNat ro else 0
    match tryBlockNext compile pattern useRegex b searchStart with
    | .foundB _ idx len t => .foundB j idx len t
    | .err => .err
    | .miss => scanBlocksNext compile pattern useRegex resume rb ro rest (j + 1)

/-- Forward scan over the scenes from absolute index i; startScene, rb, ro
are the (already clamped) cursor fields. -/
def scanScenesNext (compile : Str → Option JsRegex) (pattern : Str) (useRegex : Bool)
    (startScene : Nat) (rb ro : Int) : List Scene → Nat → ScanOut
  | [], _ => .done
  | s :: rest, i =>
    match sceneBlocks? s with
    | none => scanScenesNext compile pattern useRegex startScene rb ro rest (i + 1)
    | some bs =>
      let resume := i = startScene
      let start : Nat := if resume then clampNat rb else 0
      match scanBlocksNext compile pattern useRegex resume rb ro (bs.drop start) start with
      | .foundB j idx len t => .foundS i j idx len t s.title
      | .err => .err
      | .miss => scanScenesNext compile pattern useRegex startScene rb ro rest (i + 1)

/-- The match line computation, source lines 901-910: walk the lines of the
block text accumulating the character count and return the first line whose
span contains the match index. -/
def lineSearch (matchIndex : Nat) : List Str → Nat → Str
  | [], _ => []
  | l :: ls, charCount =>
    if charCount ≤ matchIndex ∧ matchIndex ≤ charCount + l.length then l
    else lineSearch matchIndex ls (charCount + l.length + 1)

/-- The line of t containing position matchIndex, as the source computes it. -/
def matchLineOf (t : Str) (matchIndex : Nat) : Str :=
  lineSearch matchIndex (splitNl t) 0

/-- The chapter title reported for scene i: the scene title, or a
positional name when the title is falsy (source line 914). -/
def chapterTitleOf (title : String) (i : Nat) : String :=
  if title = "" then "Scene " ++ toString (i + 1) else title

/-- Model of findNextMatchInternal (source lines 830-922).  Returns the
match (or none), the frPtrRef value after the call, and the regex toast
flag.  The guard structure follows the source: missing revisions entry
returns null; a negative cursor scene resets the temporary pointer to the
origin; a cursor scene at or past the scene count returns null without
scanning. -/
def findNextMatchInternal (compile : Str → Option JsRegex) (pattern : Str)
    (useRegex : Bool) (currentFrData : BackupData)
    (currentFrPtr : FindReplacePointer) : FindInternalResult :=
  match currentFrData.revisions with
  | [] => ⟨none, currentFrPtr, false⟩
  | rev :: _ =>
    let scenes := rev.scenes
    let tempPtr := if currentFrPtr.scene < 0 then ⟨0, 0, 0⟩ else currentFrPtr
    if (scenes.length : Int) ≤ tempPtr.scene then ⟨none, currentFrPtr, false⟩
    else
      let i0 : Nat := clampNat tempPtr.scene
      match scanScenesNext compile pattern useRegex i0 tempPtr.block tempPtr.offset
          (scenes.drop i0) i0 with
      | .done => ⟨none, currentFrPtr, false⟩
      | .err => ⟨none, currentFrPtr, true⟩
      | .foundS i j idx len t title =>
        ⟨some { sceneIndex := i, blockIndex := j, matchIndex := idx, matchLength := len,
                chapterTitle := chapterTitleOf title i, matchLine := matchLineOf t idx },
         ⟨(i : Int), (j : Int), (idx : Int) + (if 0 < len then (len : Int) else 1)⟩,
         false⟩

/-! Backward search: findPreviousMatchInternal, source lines 924-1019. -/

/-- The literal enumeration loop of the backward search (source lines
984-988): repeatedly indexOf from one past the previous hit, collecting
hits strictly below searchEnd, stopping at the first hit at or past it.
The loop advances its start index by at least one each round, so a fuel of
t.length plus one is enough for every reachable call; fuel exhaustion can
only truncate for the empty pattern, which the caller has filtered out. -/
def litMatchesBelowGo (t p : Str) (searchEnd : Int) : Nat → Nat → List (Nat × Nat)
  | _, 0 => []
  | from_, fuel + 1 =>
    match jsIndexOf t p from_ with
    | none => []
    | some idx =>
      if (idx : Int) < searchEnd then
        (idx, p.length) :: litMatchesBelowGo t p searchEnd (idx + 1) fuel
      else []

/-- All literal matches in t strictly before searchEnd, in ascending order. -/
def litMatchesBelow (t p : Str) (searchEnd : Int) : List (Nat × Nat) :=
  litMatchesBelowGo t p searchEnd 0 (t.length + 1)

/-- The regex enumeration loop of the backward search (source lines
973-983): exec with the g flag from position pos, collecting matches below
searchEnd; a zero width match advances the scan position by one (the
source bumps lastIndex).  The fuel bounds the loop against an engine that
does not advance; a well behaved engine never exhausts it. -/
def enumRegexBelow (r : JsRegex) (t : Str) (searchEnd : Int) : Nat → Nat → List (Nat × Nat)
  | _, 0 => []
  | pos, fuel + 1 =>
    match r.execFrom t pos with
    | none => []
    | some (idx, len) =>
      if (idx : Int) < searchEnd then
        (idx, len) :: enumRegexBelow r t searchEnd (if len = 0 then idx + 1 else idx + len) fuel
      else []

/-- One block of the backward scan (source lines 954-1014): resumeHit
tells whether this block is the cursor block of the cursor scene, in which
case searchEnd is the cursor offset ro, otherwise the text length; the
last collected match wins. -/
def tryBlockPrev (compile : Str → Option JsRegex) (pattern : Str) (useRegex : Bool)
    (b : Block) (resumeHit : Bool) (ro : Int) : BScanOut :=
  match b with
  | .nullish => .miss
  | .other _ => .miss
  | .textBlock _ t =>
    let searchEnd : Int := if resumeHit then ro else (t.length : Int)
    if searchEnd ≤ 0 ∧ 0 < t.length then .miss
    else if pattern = [] ∧ useRegex = false then .miss
    else
      match (if useRegex then
               match compile pattern with
               | none => none
               | some r => some (enumRegexBelow r t searchEnd 0 (t.length + 2))
             else some (litMatchesBelow t pattern searchEnd)) with
      | none => .err
      | some ms =>
        match ms.getLast? with
        | some (idx, len) => .foundB 0 idx len t
        | none => .miss

/-- Examines the single block at index j during the backward scan: a
missing index (the defensive none branch is unreachable from the callers,
which start at most at the last index) or an unsearchable block is a miss. -/
def blockAtPrev (compile : Str → Option JsRegex) (pattern : Str) (useRegex : Bool)
    (resume : Bool) (rb ro : Int) (bs : List Block) (j : Nat) : BScanOut :=
  match bs.get? j with
  | none => .miss
  | some b =>
    match tryBlockPrev compile pattern useRegex b (resume ∧ (j : Int) = rb) ro with
    | .foundB _ idx len t => .foundB j idx len t
    | .err => .err
    | .miss => .miss

/-- Backward scan over the blocks of one scene, from index j down to 0;
resume tells whether this is the cursor scene. -/
def scanBlocksPrev (compile : Str → Option JsRegex) (pattern : Str) (useRegex : Bool)
    (resume : Bool) (rb ro : Int) (bs : List Block) : Nat → BScanOut
  | 0 => blockAtPrev compile pattern useRegex resume rb ro bs 0
  | j + 1 =>
    match blockAtPrev compile pattern useRegex resume rb ro bs (j + 1) with
    | .miss => scanBlocksPrev compile pattern useRegex resume rb ro bs j
    | r => r

/-- Examines the single scene at index i during the backward scan (source
lines 936-951): skipped scenes and scenes whose block window is empty are
a miss, reported as the done constructor. -/
def sceneAtPrev (compile : Str → Option JsRegex) (pattern : Str) (useRegex : Bool)
    (scenes : List Scene) (startScene : Nat) (rb ro : Int) (i : Nat) : ScanOut :=
  match scenes.get? i with
  | none => .done
  | some s =>
    match sceneBlocks? s with
    | none => .done
    | some bs =>
      let resume := i = startScene
      let startBlockI : Int :=
        if resume then min rb ((bs.length : Int) - 1) else (bs.length : Int) - 1
      if startBlockI < 0 then .done
      else
        match scanBlocksPrev compile pattern useRegex resume rb ro bs (clampNat startBlockI) with
        | .foundB j idx len t => .foundS i j idx len t s.title
        | .err => .err
        | .miss => .done

/-- Backward scan over the scenes from index i down to 0. -/
def scanScenesPrev (compile : Str → Option JsRegex) (pattern : Str) (useRegex : Bool)
    (scenes : List Scene) (startScene : Nat) (rb ro : Int) : Nat → ScanOut
  | 0 => sceneAtPrev compile pattern useRegex scenes startScene rb ro 0
  | i + 1 =>
    match sceneAtPrev compile pattern useRegex scenes startScene rb ro (i + 1) with
    | .done => scanScenesPrev compile pattern useRegex scenes startScene rb ro i
    | r => r

/-- Model of findPreviousMatchInternal (source lines 924-1019).  A cursor
scene at or past the scene count defaults the temporary pointer to the last
scene with block and offset at MAX_SAFE_INTEGER; a then negative scene
returns null.  On a match the cursor is set to the match start. -/
def findPreviousMatchInternal (compile : Str → Option JsRegex) (pattern : Str)
    (useRegex : Bool) (currentFrData : BackupData)
    (currentFrPtr : FindReplacePointer) : FindInternalResult :=
  match currentFrData.revisions with
  | [] => ⟨none, currentFrPtr, false⟩
  | rev :: _ =>
    let scenes := rev.scenes
    let tempPtr : FindReplacePointer :=
      if (scenes.length : Int) ≤ currentFrPtr.scene then
        ⟨(scenes.length : Int) - 1, jsMaxSafeInteger, jsMaxSafeInteger⟩
      else currentFrPtr
    if tempPtr.scene < 0 then ⟨none, currentFrPtr, false⟩
    else
      match scanScenesPrev compile pattern useRegex scenes (clampNat tempPtr.scene)
          tempPtr.block tempPtr.offset (clampNat tempPtr.scene) with
      | .done => ⟨none, currentFrPtr, false⟩
      | .err => ⟨none, currentFrPtr, true⟩
      | .foundS i j idx len t title =>
        ⟨some { sceneIndex := i, blockIndex := j, matchIndex := idx, matchLength := len,
                chapterTitle := chapterTitleOf title i, matchLine := matchLineOf t idx },
         ⟨(i : Int), (j : Int), (idx : Int)⟩,
         false⟩

/-! Handler level operations on the component state. -/

/-- Model of handleFindNextMatch (source lines 1089-1101): guard on a
missing record and on an empty non-regex pattern, then run the internal
search; frMatchRef.current is set to the result unconditionally, and
frPtrRef.current was already updated (or not) by the internal call. -/
def handleFindNextMatch (compile : Str → Option JsRegex) (findPattern : Str)
    (useRegexBackup : Bool) (st : FrState) : FrState :=
  match st.frData with
  | none => st
  | some d =>
    if findPattern = [] ∧ useRegexBackup = false then st
    else
      let r := findNextMatchInternal compile findPattern useRegexBackup d st.frPtr
      { st with frMatch := r.found, frPtr := r.ptrAfter }

/-- Model of handleFindPreviousMatch (source lines 1103-1115). -/
def handleFindPreviousMatch (compile : Str → Option JsRegex) (findPattern : Str)
    (useRegexBackup : Bool) (st : FrState) : FrState :=
  match st.frData with
  | none => st
  | some d =>
    if findPattern = [] ∧ useRegexBackup = false then st
    else
      let r := findPreviousMatchInternal compile findPattern useRegexBackup d st.frPtr
      { st with frMatch := r.found, frPtr := r.ptrAfter }

/-- The mutation performed by handleReplaceMatch once the guards pass
(source lines 1124-1143): none models the try block throwing (missing
revision, scene index out of range, unparsable scene text, missing blocks
array, missing block, or a null block or non-string text property whose
substring call throws), in which case the catch leaves all state
unchanged.  On success the matched span of the block text is replaced by
splicing, the block list is re-serialized into the scene (re-serialization
keeps only the blocks field of the parsed object, as JSON.stringify of the
object literal with the single blocks key does), and the new cursor is
just past the inserted text. -/
def replaceOneCore (d : BackupData) (m : FindReplaceMatch) (replaceText : Str) :
    Option (BackupData × FindReplacePointer) :=
  match d.revisions with
  | [] => none
  | rev :: rest =>
    match rev.scenes.get? m.sceneIndex with
    | none => none
    | some sc =>
      match sc.text with
      | .invalid => none
      | .noBlocks => none
      | .parsed bs =>
        match bs.get? m.blockIndex with
        | none => none
        | some .nullish => none
        | some (.other none) => none
        | some (.other (some t)) =>
          let newText := t.take m.matchIndex ++ replaceText ++ t.drop (m.matchIndex + m.matchLength)
          let bs2 := bs.set m.blockIndex (.other (some newText))
          let sc2 := { sc with text := .parsed bs2 }
          let rev2 := { rev with scenes := rev.scenes.set m.sceneIndex sc2 }
          some ({ d with revisions := rev2 :: rest },
                ⟨(m.sceneIndex : Int), (m.blockIndex : Int),
                 (m.matchIndex : Int) + (replaceText.length : Int)⟩)
        | some (.textBlock a t) =>
          let newText := t.take m.matchIndex ++ replaceText ++ t.drop (m.matchIndex + m.matchLength)
          let bs2 := bs.set m.blockIndex (.textBlock a newText)
          let sc2 := { sc with text := .parsed bs2 }
          let rev2 := { rev with scenes := rev.scenes.set m.sceneIndex sc2 }
          some ({ d with revisions := rev2 :: rest },
                ⟨(m.sceneIndex : Int), (m.blockIndex : Int),
                 (m.matchIndex : Int) + (replaceText.length : Int)⟩)

/-- Model of handleReplaceMatch (source lines 1118-1149): requires loaded
data and a held match, then performs the splice; on success the cursor is
set just past the replacement and the held match is cleared; if the try
block throws, no state changes. -/
def handleReplaceMatch (st : FrState) (replaceText : Str) : FrState :=
  match st.frData, st.frMatch with
  | some d, some m =>
    match replaceOneCore d m replaceText with
    | some (d2, ptr2) => { frData := some d2, frPtr := ptr2, frMatch := none }
    | none => st
  | _, _ => st

/-! Bulk replacement: handleReplaceAllMatches, source lines 1151-1208. -/

/-- The literal scan-and-rebuild loop of replaceAll (source lines
1176-1184): repeated indexOf from lastIndex, copying the gap, inserting
the replacement verbatim and counting.  Each round advances lastIndex by
at least the (non-empty) pattern length, so a fuel of t.length plus one is
enough for every reachable call (the handler rejects the empty non-regex
pattern before this loop runs). -/
def replaceAllLitGo (t p R : Str) : Nat → Nat → Str × Nat
  | lastIndex, 0 => (t.drop lastIndex, 0)
  | lastIndex, fuel + 1 =>
    match jsIndexOf t p lastIndex with
    | none => (t.drop lastIndex, 0)
    | some idx =>
      let rest := replaceAllLitGo t p R (idx + p.length) fuel
      ((t.drop lastIndex).take (idx - lastIndex) ++ R ++ rest.1, rest.2 + 1)

/-- One literal-mode block rebuild: the new text and the replacement count. -/
def replaceAllBlockLit (t p R : Str) : Str × Nat :=
  replaceAllLitGo t p R 0 (t.length + 1)

/-- Model of originalBlockText.replace(regex-with-g-flag, callback)
(source lines 1169-1174): matches are found left to right, the text
between matches is copied, the callback return value (always the
replacement text) is inserted verbatim, and a zero width match advances
the scan position by one.  The fuel bounds the loop against an engine
that does not advance; a well behaved engine never exhausts it. -/
def regexReplaceGo (r : JsRegex) (t R : Str) : Nat → Nat → Nat → Str × Nat
  | segStart, _, 0 => (t.drop segStart, 0)
  | segStart, scanPos, fuel + 1 =>
    match r.execFrom t scanPos with
    | none => (t.drop segStart, 0)
    | some (idx, len) =>
      let rest := regexReplaceGo r t R (idx + len) (if len = 0 then idx + 1 else idx + len) fuel
      ((t.drop segStart).take (idx - segStart) ++ R ++ rest.1, rest.2 + 1)

/-- One block rebuild of replaceAll: none models the RegExp constructor
throwing inside the per-scene try block. -/
def replaceAllBlock (compile : Str → Option JsRegex) (p : Str) (useRegex : Bool)
    (R t : Str) : Option (Str × Nat) :=
  if useRegex then
    match compile p with
    | none => none
    | some r => some (regexReplaceGo r t R 0 0 (t.length + 2))
  else some (replaceAllBlockLit t p R)

/-- The per-scene block loop of replaceAll (source lines 1163-1188).  The
error result models the loop throwing (a null block element, on which
reading the type property throws, or a throwing RegExp constructor); its
payload is the replacement count already accumulated before the throw,
which the source keeps because replacementsCount is incremented as it
goes.  On success the rebuilt block list and the count are returned; a
block whose rebuild found nothing is rebuilt to its original text, so
assigning it unconditionally equals the conditional assignment the source
performs under its sceneModified flag. -/
def replaceAllBlocksGo (compile : Str → Option JsRegex) (p : Str) (useRegex : Bool)
    (R : Str) : List Block → Except Nat (List Block × Nat)
  | [] => .ok ([], 0)
  | b :: rest =>
    match b with
    | .nullish => .error 0
    | .other tf =>
      match replaceAllBlocksGo compile p useRegex R rest with
      | .ok (rest2, c) => .ok (.other tf :: rest2, c)
      | .error c => .error c
    | .textBlock a t =>
      if 0 < t.length then
        match replaceAllBlock compile p useRegex R t with
        | none => .error 0
        | some (t2, c) =>
          match replaceAllBlocksGo compile p useRegex R rest with
          | .ok (rest2, c2) => .ok (.textBlock a t2 :: rest2, c + c2)
          | .error c2 => .error (c + c2)
      else
        match replaceAllBlocksGo compile p useRegex R rest with
        | .ok (rest2, c) => .ok (.textBlock a t :: rest2, c)
        | .error c => .error c

/-- The per-scene step of replaceAll: an unparsable scene text or a missing
blocks array throws inside the try and is skipped with count 0; a throw in
the middle of the block loop keeps the already accumulated count but the
scene text is never re-serialized.  When the loop completes, the scene
text is the re-serialized rebuilt block list (for a scene with no
replacements the rebuilt list equals the original, matching the source
which skips the re-serialization in that case). -/
def replaceAllScene (compile : Str → Option JsRegex) (p : Str) (useRegex : Bool)
    (R : Str) (sc : Scene) : Scene × Nat :=
  match sc.text with
  | .invalid => (sc, 0)
  | .noBlocks => (sc, 0)
  | .parsed bs =>
    match replaceAllBlocksGo compile p useRegex R bs with
    | .error c => (sc, c)
    | .ok (bs2, c) => ({ sc with text := .parsed bs2 }, c)

/-- Model of handleReplaceAllMatches (source lines 1151-1208): guard on
missing data and empty non-regex pattern; deep-copy semantics are value
semantics here; every scene of revisions zero is processed; when at least
one replacement was made the record dates are set to now and the new
record is stored, otherwise the loaded record is kept as is; the cursor is
reset to the origin and the held match cleared in both cases.  A missing
revisions entry makes the source throw before any state change (the
uncaught member access on undefined), modelled as returning the state
unchanged with count 0. -/
def handleReplaceAllMatches (compile : Str → Option JsRegex) (findPattern : Str)
    (useRegexBackup : Bool) (replaceText : Str) (now : Int) (st : FrState) :
    FrState × Nat :=
  match st.frData with
  | none => (st, 0)
  | some d =>
    if findPattern = [] ∧ useRegexBackup = false then (st, 0)
    else
      match d.revisions with
      | [] => (st, 0)
      | rev :: rest =>
        let results := rev.scenes.map (replaceAllScene compile findPattern useRegexBackup replaceText)
        let scenes2 := results.map Prod.fst
        let count := (results.map Prod.snd).sum
        let d2 :=
          if 0 < count then
            { d with last_update_date := now, last_backup_date := now,
                     revisions := { rev with scenes := scenes2, date := now } :: rest }
          else d
        ({ frData := some d2, frPtr := ⟨0, 0, 0⟩, frMatch := none }, count)

/-! Iterated search, and the canonical occurrence list the iterated
searches are compared against. -/

/-- Repeated findNext: collect the (scene, block, index) positions of the
successive matches, stopping at the first call that returns no match. -/
def collectNextPositions (compile : Str → Option JsRegex) (pattern : Str)
    (useRegex : Bool) (data : BackupData) :
    FindReplacePointer → Nat → List (Nat × Nat × Nat)
  | _, 0 => []
  | ptr, fuel + 1 =>
    let r := findNextMatchInternal compile pattern useRegex data ptr
    match r.found with
    | some m => (m.sceneIndex, m.blockIndex, m.matchIndex) ::
        collectNextPositions compile pattern useRegex data r.ptrAfter fuel
    | none => []

/-- Repeated findPrevious, collecting positions the same way. -/
def collectPrevPositions (compile : Str → Option JsRegex) (pattern : Str)
    (useRegex : Bool) (data : BackupData) :
    FindReplacePointer → Nat → List (Nat × Nat × Nat)
  | _, 0 => []
  | ptr, fuel + 1 =>
    let r := findPreviousMatchInternal compile pattern useRegex data ptr
    match r.found with
    | some m => (m.sceneIndex, m.blockIndex, m.matchIndex) ::
        collectPrevPositions compile pattern useRegex data r.ptrAfter fuel
    | none => []

/-- The occurrence positions of pattern p inside a list of blocks, paired
with absolute scene index i and block indices counted from j. -/
def posOfBlocks (p : Str) (i : Nat) : List Block → Nat → List (Nat × Nat × Nat)
  | [], _ => []
  | b :: rest, j =>
    (match b with
     | .textBlock _ t => (occs t p).map (fun k => (i, j, k))
     | _ => []) ++ posOfBlocks p i rest (j + 1)

/-- The occurrence positions of p in a scene list, scene indices counted
from i: every occurrence of p in every text block of every scene the
finder can search, in scan order. -/
def posOfScenes (p : Str) : List Scene → Nat → List (Nat × Nat × Nat)
  | [], _ => []
  | s :: rest, i =>
    (match sceneBlocks? s with
     | none => []
     | some bs => posOfBlocks p i bs 0) ++ posOfScenes p rest (i + 1)

/-- All searchable occurrence positions of p in the loaded record. -/
def docPositions (p : Str) (data : BackupData) : List (Nat × Nat × Nat) :=
  match data.revisions with
  | [] => []
  | rev :: _ => posOfScenes p rev.scenes 0

/-- Checks that no two occurrences of p overlap inside any searchable text
block of the record: along the ascending occurrence list of each block,
each occurrence ends at or before the next begins. -/
def nonOverlapping (p : Str) (data : BackupData) : Bool :=
  match data.revisions with
  | [] => true
  | rev :: _ =>
    rev.scenes.all fun sc =>
      match sc.text with
      | .parsed bs =>
        bs.all fun b =>
          match b with
          | .textBlock _ t => decide (List.Pairwise (fun k k2 => k + p.length ≤ k2) (occs t p))
          | _ => true
      | _ => true

/-- Checks the block counts of the record are below MAX_SAFE_INTEGER, so
that the backward default cursor values never collide with a real block
index; every record a JS runtime can hold satisfies this. -/
def docBounded (data : BackupData) : Bool :=
  match data.revisions with
  | [] => true
  | rev :: _ =>
    rev.scenes.all fun sc =>
      match sc.text with
      | .parsed bs => decide ((bs.length : Int) ≤ jsMaxSafeInteger)
      | _ => true

/-- Greedy left-to-right selection of non-overlapping positions from an
ascending position list: a position is selected when it starts at or after
the threshold, which then moves past the selected occurrence. -/
def greedyPick (plen : Nat) : List Nat → Nat → List Nat
  | [], _ => []
  | k :: ks, thr =>
    if thr ≤ k then k :: greedyPick plen ks (k + plen)
    else greedyPick plen ks thr

/-- The non-overlapping occurrences of p in t, selected left to right from
the full ascending occurrence list: this is the specification-side reading
of the non-overlapping occurrences of a pattern. -/
def greedyOccs (t p : Str) : List Nat := greedyPick p.length (occs t p) 0

/-- Number of non-overlapping occurrences of p in t: the count that the
replaceAll loop is compared against. -/
def occCount (t p : Str) : Nat := (greedyOccs t p).length

/-- The segments of t delimited by the occurrence positions idxs (each of
width plen), starting at position start. -/
def segmentsOf (t : Str) (plen : Nat) : List Nat → Nat → List Str
  | [], start => [t.drop start]
  | k :: ks, start => (t.drop start).take (k - start) :: segmentsOf t plen ks (k + plen)

/-- Splits t on its non-overlapping occurrences of p, left to right: the
segments between consecutive occurrences, in order.  Splicing a
replacement between these segments is the specification-side reading of
replace-all with a verbatim replacement. -/
def litSplit (t p : Str) : List Str := segmentsOf t p.length (greedyOccs t p) 0

/-- Occurrence count over one block, as seen by the specification side. -/
def blockOccCount (p : Str) : Block → Nat
  | .textBlock _ t => occCount t p
  | _ => 0

/-- Occurrence count over one scene: only parsed scenes have text blocks. -/
def sceneOccCount (p : Str) (sc : Scene) : Nat :=
  match sc.text with
  | .parsed bs => (bs.map (blockOccCount p)).sum
  | _ => 0

/-- Whether no parsed blocks array of the record contains a null element
(the element class on which the replaceAll block loop throws). -/
def noNullBlocks (data : BackupData) : Bool :=
  match data.revisions with
  | [] => true
  | rev :: _ =>
    rev.scenes.all fun sc =>
      match sc.text with
      | .parsed bs => bs.all fun b => decide (b ≠ .nullish)
      | _ => true

/-! EPUB structure resolution (EpubToZipTool, source lines 1566-1776).
The JSZip archive is abstracted as a lookup oracle (path to string content
for the resolver, path to byte content for the extraction loop), and the
DOM parsers as oracles from content strings to the query facets the source
reads from the parsed documents. -/

/-- A resolved chapter reference: label text and archive path. -/
structure Chapter where
  title : Str
  href : Str
deriving Repr, DecidableEq

/-- One navPoint of an NCX document, reduced to the two query results the
source reads: the textContent of its navLabel text element (absent when
the element is missing) and the src attribute of its content element. -/
structure NcxPoint where
  labelText : Option Str
  contentSrc : Option Str
deriving Repr, DecidableEq

/-- One anchor of a NAV table of contents list: its textContent and href
attribute as queried by the source. -/
structure NavLink where
  labelText : Option Str
  href : Option Str
deriving Repr, DecidableEq

/-- A parsed XML document, reduced to the query facets the source reads
from container.xml, the OPF package document and an NCX document. -/
structure XmlDocM where
  rootfileFullPath : Option Str
  navItemHref : Option (Option Str)
  spineToc : Option Str
  manifestById : Str → Option (Option Str)
  navPoints : List NcxPoint

/-- A parsed HTML NAV document, reduced to the selected table of contents
list (the source tries the epub-type/id/class selectors and then the first
list in the body; the model holds the outcome of that selection). -/
structure NavDocM where
  tocList : Option (List NavLink)

/-- Splits s on the slash character. -/
def splitSlash : Str → List Str
  | [] => [[]]
  | x :: xs =>
    match splitSlash xs with
    | [] => [[]]
    | l :: ls => if x = '/' then [] :: l :: ls else (x :: l) :: ls

/-- WHATWG remove-dot-segments over a path segment list, with acc the
reversed output stack: a double dot pops the previous segment, a single
dot is dropped, and a trailing dot or double dot leaves a trailing empty
segment (a directory reference), as the URL constructor does. -/
def dotNorm : List Str → List Str → List Str
  | [], acc => acc.reverse
  | seg :: rest, acc =>
    if seg = str ".." then
      match rest with
      | [] => (([] : Str) :: acc.tail).reverse
      | _ => dotNorm rest acc.tail
    else if seg = str "." then
      match rest with
      | [] => (([] : Str) :: acc).reverse
      | _ => dotNorm rest acc
    else dotNorm rest (seg :: acc)

/-- Model of resolvePath (source lines 1577-1587): an empty relative path
gives the empty string; with no base directory a rooted path loses its
leading slash; otherwise the path is resolved with the URL constructor
against file:/// plus the base directory, and the resulting pathname minus
its leading slash is returned.  The URL resolution is modelled for inputs
without scheme prefixes, percent escapes, query or fragment characters or
backslashes, which is the alphabet of archive hrefs this resolver is given
(fragments are stripped by the callers before resolution); on that domain
the constructor never throws, so the string-concatenation catch branch of
the source is not taken. -/
def resolvePath (relativePath : Str) (baseDirPath : Str) : Str :=
  if relativePath = [] then []
  else if baseDirPath = [] then
    match relativePath with
    | '/' :: rest => rest
    | _ => relativePath
  else
    match relativePath with
    | '/' :: rest => List.intercalate (str "/") (dotNorm (splitSlash rest) [])
    | _ => List.intercalate (str "/")
        (dotNorm (splitSlash relativePath) (splitSlash baseDirPath).reverse)

/-- Model of readFileFromZip (source lines 1589-1597): the leading slash is
stripped and the zip oracle queried; a missing entry or read error is none. -/
def readFileFromZip (zipGet : Str → Option Str) (path : Str) : Option Str :=
  match path with
  | '/' :: rest => zipGet rest
  | _ => zipGet path

/-- The directory part of an archive path (source line 1607): the text
before the last slash, or the empty string when there is no slash. -/
def dirOf (p : Str) : Str :=
  if p.contains '/' then ((p.reverse.dropWhile (fun c => c ≠ '/')).drop 1).reverse
  else []

/-- Model of findOpfPath (source lines 1599-1609): read and parse the
container document, take the full-path attribute of its first rootfile
declaration, and return it with its directory. -/
def findOpfPath (zipGet : Str → Option Str) (parseXmlF : Str → Option XmlDocM) :
    Option (Str × Str) :=
  match readFileFromZip zipGet (str "META-INF/container.xml") with
  | none => none
  | some containerContent =>
    match parseXmlF containerContent with
    | none => none
    | some containerDoc =>
      match containerDoc.rootfileFullPath with
      | none => none
      | some rootfilePath =>
        if rootfilePath = [] then none
        else some (rootfilePath, dirOf rootfilePath)

/-- Which table of contents format was located. -/
inductive TocType where
  | nav
  | ncx
deriving Repr, DecidableEq

/-- Model of findTocHref (source lines 1611-1627): a manifest item with the
nav property wins when it has a non-empty href; otherwise the spine toc
attribute names a manifest item whose href is used. -/
def findTocHref (opfDoc : XmlDocM) : Option (Str × TocType) :=
  let ncxBranch :=
    match opfDoc.spineToc with
    | none => none
    | some ncxId =>
      if ncxId = [] then none
      else
        match opfDoc.manifestById ncxId with
        | none => none
        | some none => none
        | some (some href) => if href = [] then none else some (href, TocType.ncx)
  match opfDoc.navItemHref with
  | some (some href) => if href = [] then ncxBranch else some (href, TocType.nav)
  | some none => ncxBranch
  | none => ncxBranch

/-- The text before the first hash character (split on hash, first piece). -/
def splitHashHead (s : Str) : Str := s.takeWhile (fun c => c ≠ '#')

/-- Model of extractChaptersFromNcx (source lines 1629-1637): every
navPoint with a truthy trimmed label and truthy content src contributes a
chapter whose href is the fragment-stripped src resolved against baseDir. -/
def extractChaptersFromNcx (navPoints : List NcxPoint) (baseDir : Str) : List Chapter :=
  navPoints.filterMap fun point =>
    match point.labelText with
    | none => none
    | some raw =>
      let label := trimStr raw
      match point.contentSrc with
      | none => none
      | some contentSrc =>
        if label = [] ∨ contentSrc = [] then none
        else some ⟨label, resolvePath (splitHashHead contentSrc) baseDir⟩

/-- Model of extractChaptersFromNav (source lines 1639-1651): every anchor
of the selected list with a truthy whitespace-collapsed trimmed label and
truthy href contributes a chapter, resolved against baseDir the same way. -/
def extractChaptersFromNav (navDoc : NavDocM) (baseDir : Str) : List Chapter :=
  match navDoc.tocList with
  | none => []
  | some links =>
    links.filterMap fun link =>
      match link.labelText with
      | none => none
      | some raw =>
        let label := trimStr (collapseWs raw)
        match link.href with
        | none => none
        | some rawHref =>
          if label = [] ∨ rawHref = [] then none
          else some ⟨label, resolvePath (splitHashHead rawHref) baseDir⟩

/-- The loop of deduplicateChapters with its seen set (source lines
1653-1663): a chapter is kept when its href is truthy and not yet seen. -/
def dedupGo : List Chapter → List Str → List Chapter
  | [], _ => []
  | c :: rest, seen =>
    if c.href ≠ [] ∧ c.href ∉ seen then c :: dedupGo rest (c.href :: seen)
    else dedupGo rest seen

/-- Model of deduplicateChapters (source lines 1653-1663). -/
def deduplicateChapters (chapters : List Chapter) : List Chapter :=
  dedupGo chapters []

/-- Model of getChapterListFromEpub (source lines 1665-1688): locate the
OPF, parse it, locate the table of contents reference, resolve it against
the OPF directory, read and parse it in the located format, extract the
chapter list and deduplicate.  Every failure yields the empty list (the
source also sets a status message, which carries no further data flow). -/
def getChapterListFromEpub (zipGet : Str → Option Str)
    (parseXmlF : Str → Option XmlDocM) (parseHtmlF : Str → Option NavDocM) :
    List Chapter :=
  match findOpfPath zipGet parseXmlF with
  | none => []
  | some (opfPath, opfDir) =>
    match readFileFromZip zipGet opfPath with
    | none => []
    | some opfContent =>
      match parseXmlF opfContent with
      | none => []
      | some opfDoc =>
        match findTocHref opfDoc with
        | none => []
        | some (tocHref, ty) =>
          let tocFullPath := resolvePath tocHref opfDir
          match readFileFromZip zipGet tocFullPath with
          | none => []
          | some tocContent =>
            match ty with
            | .ncx =>
              match parseXmlF tocContent with
              | some ncxDoc => deduplicateChapters (extractChaptersFromNcx ncxDoc.navPoints opfDir)
              | none => deduplicateChapters []
            | .nav =>
              match parseHtmlF tocContent with
              | some navDoc => deduplicateChapters (extractChaptersFromNav navDoc opfDir)
              | none => deduplicateChapters []

/-! Chapter byte decoding (source lines 1737-1745) and the extraction
loop (source lines 1730-1757). -/

/-- The Unicode replacement character. -/
def replacementChar : Char := Char.ofNat 0xFFFD

/-- The WHATWG UTF-8 decoder in non-fatal mode, which is what
TextDecoder with utf-8 and fatal false runs: state is the code point
accumulated so far, the number of continuation bytes still needed, and the
lower and upper boundaries for the next continuation byte.  Decode errors
emit the replacement character; when a continuation byte is invalid it is
reconsumed in the initial state, per the restore step of the standard. -/
def utf8Go : Nat → List Nat → Nat → Nat → Nat → Nat → List Char
  | 0, _, _, _, _, _ => []
  | _ + 1, [], _, 0, _, _ => []
  | _ + 1, [], _, _ + 1, _, _ => [replacementChar]
  | fuel + 1, b :: bs, _, 0, _, _ =>
    if b ≤ 0x7F then Char.ofNat b :: utf8Go fuel bs 0 0 0x80 0xBF
    else if 0xC2 ≤ b ∧ b ≤ 0xDF then utf8Go fuel bs (b - 0xC0) 1 0x80 0xBF
    else if 0xE0 ≤ b ∧ b ≤ 0xEF then
      utf8Go fuel bs (b - 0xE0) 2 (if b = 0xE0 then 0xA0 else 0x80) (if b = 0xED then 0x9F else 0xBF)
    else if 0xF0 ≤ b ∧ b ≤ 0xF4 then
      utf8Go fuel bs (b - 0xF0) 3 (if b = 0xF0 then 0x90 else 0x80) (if b = 0xF4 then 0x8F else 0xBF)
    else replacementChar :: utf8Go fuel bs 0 0 0x80 0xBF
  | fuel + 1, b :: bs, cp, n + 1, lo, hi =>
    if lo ≤ b ∧ b ≤ hi then
      match n with
      | 0 => Char.ofNat (cp * 64 + (b - 0x80)) :: utf8Go fuel bs 0 0 0x80 0xBF
      | m + 1 => utf8Go fuel bs (cp * 64 + (b - 0x80)) (m + 1) 0x80 0xBF
    else replacementChar :: utf8Go fuel (b :: bs) 0 0 0x80 0xBF

/-- Non-fatal UTF-8 decode of a byte sequence.  Each decoder step either
consumes a byte or resets a pending multi-byte state without consuming,
and a reset is always followed by a consuming step, so twice the length
plus one steps of fuel always suffice. -/
def utf8DecodeLossy (bytes : List Nat) : Str :=
  utf8Go (2 * bytes.length + 1) bytes 0 0 0x80 0xBF

/-- The chapter byte decode step of handleExtractChapters (source lines
1739-1745): the source constructs TextDecoder with utf-8 and fatal set to
false, whose decode never throws (invalid sequences become replacement
characters), so the catch branch holding the latin1 fallback decoder is
unreachable and the decode is always the non-fatal UTF-8 decode. -/
def decodeChapter (bytes : List Nat) : Str := utf8DecodeLossy bytes

/-- Modelled from the spec: the single-byte Latin-1-style fallback decode
named in sections 4.3 and 7 (each byte becomes the code point of the same
value).  The source names TextDecoder latin1, which is windows-1252; the
two agree outside the 0x80-0x9F range, and the theorems below evaluate
this decoder only outside that range. -/
def latin1Decode (bytes : List Nat) : Str := bytes.map (fun b => Char.ofNat b)

/-- Validity of a byte sequence as UTF-8 (the condition under which a
fatal decoder would not throw), written as a direct checker over the
standard sequence forms. -/
def validUtf8 : List Nat → Bool
  | [] => true
  | b :: bs =>
    if b ≤ 0x7F then validUtf8 bs
    else if 0xC2 ≤ b ∧ b ≤ 0xDF then
      match bs with
      | b1 :: bs2 => decide (0x80 ≤ b1 ∧ b1 ≤ 0xBF) && validUtf8 bs2
      | [] => false
    else if 0xE0 ≤ b ∧ b ≤ 0xEF then
      match bs with
      | b1 :: b2 :: bs2 =>
        decide ((if b = 0xE0 then 0xA0 else 0x80) ≤ b1 ∧ b1 ≤ (if b = 0xED then 0x9F else 0xBF)) &&
        decide (0x80 ≤ b2 ∧ b2 ≤ 0xBF) && validUtf8 bs2
      | _ => false
    else if 0xF0 ≤ b ∧ b ≤ 0xF4 then
      match bs with
      | b1 :: b2 :: b3 :: bs2 =>
        decide ((if b = 0xF0 then 0x90 else 0x80) ≤ b1 ∧ b1 ≤ (if b = 0xF4 then 0x8F else 0xBF)) &&
        decide (0x80 ≤ b2 ∧ b2 ≤ 0xBF) && decide (0x80 ≤ b3 ∧ b3 ≤ 0xBF) && validUtf8 bs2
      | _ => false
    else false

/-- Model of String padStart to width two with zero (source line 1753). -/
def padStart2 (s : String) : String :=
  if 2 ≤ s.length then s
  else if s.length = 1 then "0" ++ s
  else "00" ++ s

/-- The output filename for the chapter at zero-based position i of the
resolved chapter list (source line 1753). -/
def txtFilename (i : Nat) : String :=
  "C" ++ padStart2 (toString (i + 1)) ++ ".txt"

/-- The per-chapter fetch, decode, extract and trim sequence of the
extraction loop (source lines 1734-1751): none when the chapter path is
missing from the archive (the skipped-with-diagnostic branch), otherwise
the decoded and extracted text after the optional leading-line removal
(the chapter text becomes empty when it has at most linesToRemove lines). -/
def processedChapterText (zipBytes : Str → Option (List Nat)) (extractText : Str → Str)
    (enableRemoveLines : Bool) (linesToRemove : Int) (entry : Chapter) : Option Str :=
  match zipBytes entry.href with
  | none => none
  | some chapterBytes =>
    let chapterText := extractText (decodeChapter chapterBytes)
    some (if enableRemoveLines ∧ 0 < linesToRemove ∧ chapterText ≠ [] then
            (let lines := splitNl chapterText
             if linesToRemove < (lines.length : Int) then
               joinNl (lines.drop (clampNat linesToRemove))
             else [])
          else chapterText)

/-- The chapter loop of handleExtractChapters (source lines 1732-1757)
from position i on: a chapter missing from the archive is skipped, and a
chapter whose processed text is empty or blank is excluded (source line
1752); all others are emitted under the filename derived from i. -/
def extractChaptersLoop (zipBytes : Str → Option (List Nat)) (extractText : Str → Str)
    (enableRemoveLines : Bool) (linesToRemove : Int) :
    List Chapter → Nat → List (String × Str)
  | [], _ => []
  | entry :: rest, i =>
    match processedChapterText zipBytes extractText enableRemoveLines linesToRemove entry with
    | none => extractChaptersLoop zipBytes extractText enableRemoveLines linesToRemove rest (i + 1)
    | some chapterText2 =>
      if chapterText2 ≠ [] ∧ 0 < (trimStr chapterText2).length then
        (txtFilename i, chapterText2) ::
          extractChaptersLoop zipBytes extractText enableRemoveLines linesToRemove rest (i + 1)
      else extractChaptersLoop zipBytes extractText enableRemoveLines linesToRemove rest (i + 1)

/-- Model of the chapter extraction of handleExtractChapters: the ordered
list of emitted filename and text pairs. -/
def handleExtractChapters (zipBytes : Str → Option (List Nat)) (extractText : Str → Str)
    (enableRemoveLines : Bool) (linesToRemove : Int) (chapters : List Chapter) :
    List (String × Str) :=
  extractChaptersLoop zipBytes extractText enableRemoveLines linesToRemove chapters 0

/-! Helper observers and concrete instances used by the theorems below. -/

/-- Number of scenes of the first revision (0 when there is none). -/
def sceneCount (data : BackupData) : Nat :=
  match data.revisions with
  | [] => 0
  | rev :: _ => rev.scenes.length

/-- The text of the block at scene i, block j of the loaded record, when
that block is a text block. -/
def blockTextAt (d? : Option BackupData) (i j : Nat) : Option Str :=
  match d? with
  | none => none
  | some d =>
    match d.revisions with
    | [] => none
    | rev :: _ =>
      match rev.scenes.get? i with
      | none => none
      | some sc =>
        match sc.text with
        | .parsed bs =>
          match bs.get? j with
          | some (.textBlock _ t) => some t
          | _ => none
        | _ => none

/-- A compile oracle on which every pattern throws (models RegExp
rejecting the pattern, as it does for an unclosed character class). -/
def compileNone : Str → Option JsRegex := fun _ => none

/-- An engine that matches the fixed literal q, used to instantiate the
regex branch in witnesses. -/
def mkLitEngine (q : Str) : JsRegex :=
  ⟨fun t pos => (jsIndexOf t q pos).map (fun i => (i, q.length))⟩

/-- A compile oracle that compiles every pattern to its literal engine. -/
def compileLit : Str → Option JsRegex := fun q => some (mkLitEngine q)

/-- A scene with a parsed blocks list. -/
def mkScene (title : String) (bs : List Block) : Scene := ⟨title, .parsed bs⟩

/-- A one-revision record with the given scenes. -/
def mkData (scenes : List Scene) : BackupData :=
  ⟨4, "c", "t", "d", 0, 0, [⟨1, 0, scenes⟩]⟩

/-- A record whose single block text is aaa: the pattern aa has the two
overlapping occurrences 0 and 1 in it. -/
def dataAaa : BackupData := mkData [mkScene "S1" [.textBlock "left" (str "aaa")]]

/-- A record containing a null block element before a text block. -/
def dataNull : BackupData :=
  mkData [⟨"S", .parsed [.nullish, .textBlock "left" (str "a")]⟩]

/-- A record with one scene and one text block abcabc. -/
def dataAbc : BackupData := mkData [mkScene "S" [.textBlock "left" (str "abcabc")]]

/-- Archive oracle of the structure-resolution instance: a container, an
OPF in the OEBPS directory, and an NCX table of contents document that
lives in the nav subdirectory of OEBPS. -/
def zipGetC2 : Str → Option Str := fun p =>
  if p = str "META-INF/container.xml" then some (str "containerDoc")
  else if p = str "OEBPS/content.opf" then some (str "opfDoc")
  else if p = str "OEBPS/nav/toc.ncx" then some (str "ncxDoc")
  else none

/-- The parsed container document of the instance. -/
def xmlDocContainerC2 : XmlDocM :=
  ⟨some (str "OEBPS/content.opf"), none, none, fun _ => none, []⟩

/-- The parsed OPF of the instance: no nav item, a spine toc attribute
naming the manifest item whose href points into the nav subdirectory. -/
def xmlDocOpfC2 : XmlDocM :=
  ⟨none, none, some (str "ncx"),
   (fun i => if i = str "ncx" then some (some (str "nav/toc.ncx")) else none), []⟩

/-- The parsed NCX of the instance: one navPoint with a sibling-relative
content src. -/
def xmlDocNcxC2 : XmlDocM :=
  ⟨none, none, none, fun _ => none, [⟨some (str "Ch1"), some (str "c1.xhtml")⟩]⟩

/-- XML parse oracle of the instance. -/
def parseXmlC2 : Str → Option XmlDocM := fun s =>
  if s = str "containerDoc" then some xmlDocContainerC2
  else if s = str "opfDoc" then some xmlDocOpfC2
  else if s = str "ncxDoc" then some xmlDocNcxC2
  else none

/-- HTML parse oracle of the instance (never consulted on the NCX path). -/
def parseHtmlC2 : Str → Option NavDocM := fun _ => none

/-- Archive byte oracle of the extraction instance: two chapter files of
one ASCII byte each. -/
def zipBytesC7 : Str → Option (List Nat) := fun p =>
  if p = str "h1" then some [97]
  else if p = str "h2" then some [98]
  else none

/-- Text extractor oracle of the extraction instance: the first chapter
extracts to empty text, the second to itself. -/
def extractTextC7 : Str → Str := fun s => if s = str "a" then [] else s

/-- The resolved chapter list of the extraction instance. -/
def chaptersC7 : List Chapter := [⟨str "One", str "h1"⟩, ⟨str "Two", str "h2"⟩]
/-- Forward qualification of a position x against a Nat-valued cursor c:
the cursor order under which findNext returns the least qualifying
position (a match may start at the cursor offset itself). -/
def nextGE (c x : Nat × Nat × Nat) : Bool :=
  decide (c.1 < x.1 ∨ (c.1 = x.1 ∧ (c.2.1 < x.2.1 ∨ (c.2.1 = x.2.1 ∧ c.2.2 ≤ x.2.2))))

/-- Backward qualification: x lies strictly before the cursor c in the
(scene, block, offset) lexicographic order, the order under which
findPrevious returns the greatest qualifying position. -/
def posLt (x c : Nat × Nat × Nat) : Bool :=
  decide (x.1 < c.1 ∨ (x.1 = c.1 ∧ (x.2.1 < c.2.1 ∨ (x.2.1 = c.2.1 ∧ x.2.2 < c.2.2))))

/-- The occurrence positions contributed by the single scene at index i of
the scene list (empty when the scene is missing or skipped). -/
def scenePos (p : Str) (scenes : List Scene) (i : Nat) : List (Nat × Nat × Nat) :=
  match scenes.get? i with
  | none => []
  | some s =>
    match sceneBlocks? s with
    | none => []
    | some bs => posOfBlocks p i bs 0

/-- Total occurrence count of p over all text blocks of all scenes of the
first revision. -/
def docOccCount (p : Str) (data : BackupData) : Nat :=
  match data.revisions with
  | [] => 0
  | rev :: _ => (rev.scenes.map (sceneOccCount p)).sum

/-- A held match value used by the bad-regex instance. -/
def m0C3 : FindReplaceMatch := ⟨0, 0, 0, 1, "x", []⟩

/-- C10: for every pattern, regex flag, record and cursor, a cursor scene at
or past the scene count makes findNextMatchInternal return no match with the
pointer unchanged and no regex toast, and a negative cursor scene makes the
search behave exactly like a search from the origin pointer. -/
theorem spec_C10 : ∀ (compile : Str → Option JsRegex) (p : Str) (r : Bool)
    (data : BackupData) (ptr : FindReplacePointer),
    ((sceneCount data : Int) ≤ ptr.scene →
      findNextMatchInternal compile p r data ptr = ⟨none, ptr, false⟩) ∧
    (ptr.scene < 0 →
      (findNextMatchInternal compile p r data ptr).found =
        (findNextMatchInternal compile p r data ⟨0, 0, 0⟩).found ∧
      (findNextMatchInternal compile p r data ptr).regexToast =
        (findNextMatchInternal compile p r data ⟨0, 0, 0⟩).regexToast) := by
  intro compile p r data ptr
  constructor
  · intro h
    cases hrev : data.revisions with
    | nil => simp [findNextMatchInternal, hrev]
    | cons rev rest =>
      have hlen : (rev.scenes.length : Int) ≤ ptr.scene := by
        simpa [sceneCount, hrev] using h
      have h0 : ¬ ptr.scene < 0 := by omega
      simp [findNextMatchInternal, hrev, h0, hlen]
  · intro h
    cases hrev : data.revisions with
    | nil => simp [findNextMatchInternal, hrev]
    | cons rev rest =>
      by_cases hlen : (rev.scenes.length : Int) ≤ 0
      · have hz : rev.scenes.length = 0 := by omega
        simp [findNextMatchInternal, hrev, h, hz]
      · have h2 : ¬ ((0:Int) < 0) := by omega
        simp only [findNextMatchInternal, hrev, if_pos h, if_neg h2, if_neg hlen]
        cases hs : scanScenesNext compile p r (clampNat 0) 0 0
            (List.drop (clampNat 0) rev.scenes) (clampNat 0) <;> simp [hs]

/-- Witness for C10 at a concrete record, an out-of-range cursor scene 5 and
a negative cursor scene. -/
theorem spec_C10_witness :
    ((sceneCount dataAaa : Int) ≤ (5:Int) ∧
      findNextMatchInternal compileNone (str "a") false dataAaa ⟨5, 0, 0⟩ = ⟨none, ⟨5,0,0⟩, false⟩) ∧
    (((-3:Int) < 0) ∧
      (findNextMatchInternal compileNone (str "a") false dataAaa ⟨-3, 7, 7⟩).found =
        (findNextMatchInternal compileNone (str "a") false dataAaa ⟨0, 0, 0⟩).found) := by
  refine ⟨⟨by decide, (spec_C10 compileNone (str "a") false dataAaa ⟨5,0,0⟩).1 (by decide)⟩,
          ⟨by decide, ((spec_C10 compileNone (str "a") false dataAaa ⟨-3,7,7⟩).2 (by decide)).1⟩⟩

/-- C6: the byte 0xFF is not valid UTF-8, the chapter decoder built with the
non-fatal UTF-8 TextDecoder turns it into the replacement character, while
the Latin-1 fallback held by the dead catch branch would decode it to the
character U+00FF, so the decoder the claim describes and the one the code
builds disagree on this input. -/
theorem spec_C6 :
    validUtf8 [0xFF] = false ∧
    decodeChapter [0xFF] = [replacementChar] ∧
    latin1Decode [0xFF] = [Char.ofNat 0xFF] ∧
    decodeChapter [0xFF] ≠ latin1Decode [0xFF] := by
  refine ⟨by decide, by decide, by decide, by decide⟩

/-- Counterexample to C1 as stated: with the overlapping pattern aa in the
block text aaa, repeated findNext visits only position 0 while repeated
findPrevious visits positions 1 and 0, so the backward visit sequence is not
the reverse of the forward one. -/
theorem counterexample_C1 :
    collectNextPositions compileNone (str "aa") false dataAaa ⟨0, 0, 0⟩ 10 = [(0, 0, 0)] ∧
    collectPrevPositions compileNone (str "aa") false dataAaa ⟨1, 0, 0⟩ 10 =
      [(0, 0, 1), (0, 0, 0)] ∧
    collectNextPositions compileNone (str "aa") false dataAaa ⟨0, 0, 0⟩ 10 ≠
      (collectPrevPositions compileNone (str "aa") false dataAaa ⟨1, 0, 0⟩ 10).reverse ∧
    (0, 0, 1) ∈ collectPrevPositions compileNone (str "aa") false dataAaa ⟨1, 0, 0⟩ 10 ∧
    (0, 0, 1) ∉ collectNextPositions compileNone (str "aa") false dataAaa ⟨0, 0, 0⟩ 10 := by
  refine ⟨by decide, by decide, by decide, by decide, by decide⟩

/-- Counterexample to C5 as stated: a scene whose parsed blocks array holds
a null element before a text block makes replaceAll report 0 replacements
although the document holds one occurrence of the pattern. -/
theorem counterexample_C5 :
    (handleReplaceAllMatches compileNone (str "a") false (str "z") 7
      ⟨some dataNull, ⟨0, 0, 0⟩, none⟩).2 = 0 ∧
    docOccCount (str "a") dataNull = 1 := by
  refine ⟨by decide, by decide⟩

/-- Counterexample to C7 as stated: when the first of two chapters extracts
to whitespace-only text, the single emitted file is named C02.txt, not
C01.txt, so numbering follows the chapter list position rather than the
count of included chapters. -/
theorem counterexample_C7 :
    handleExtractChapters zipBytesC7 extractTextC7 false 0 chaptersC7 =
      [("C02.txt", str "b")] ∧
    ("C02.txt" : String) ≠ "C01.txt" := by
  refine ⟨by decide, by decide⟩

/-- Counterexample to C8 as stated: two chapters whose resolved path is
empty are both dropped by deduplication, so no entry with that path
survives, not the first one. -/
theorem counterexample_C8 :
    deduplicateChapters [⟨str "A", []⟩, ⟨str "B", []⟩] = [] ∧
    (deduplicateChapters [⟨str "A", []⟩, ⟨str "B", []⟩]).countP
      (fun c => decide (c.href = [])) = 0 := by
  refine ⟨by decide, by decide⟩

/-- Counterexample to C2 as stated: with the NCX at OEBPS/nav/toc.ncx and a
chapter src of c1.xhtml, the extractor resolves against the OPF directory
OEBPS giving OEBPS/c1.xhtml, not against the ToC directory OEBPS/nav which
would give OEBPS/nav/c1.xhtml. -/
theorem counterexample_C2 :
    getChapterListFromEpub zipGetC2 parseXmlC2 parseHtmlC2 =
      [⟨str "Ch1", str "OEBPS/c1.xhtml"⟩] ∧
    dirOf (resolvePath (str "nav/toc.ncx") (str "OEBPS")) = str "OEBPS/nav" ∧
    resolvePath (str "c1.xhtml") (str "OEBPS/nav") = str "OEBPS/nav/c1.xhtml" ∧
    str "OEBPS/c1.xhtml" ≠ str "OEBPS/nav/c1.xhtml" := by
  refine ⟨by decide, by decide, by decide, by decide⟩

/-- Counterexample to C3 as stated: with a regex pattern the engine rejects,
the findNext handler stores the null result and thereby clears the
previously held match, which the claim says is left unchanged; the toast
flag is raised as claimed. -/
theorem counterexample_C3 :
    (handleFindNextMatch compileNone (str "[") true
      ⟨some dataAaa, ⟨0, 0, 0⟩, some m0C3⟩).frMatch = none ∧
    (FrState.mk (some dataAaa) ⟨0, 0, 0⟩ (some m0C3)).frMatch = some m0C3 ∧
    (none : Option FindReplaceMatch) ≠ some m0C3 ∧
    (findNextMatchInternal compileNone (str "[") true dataAaa ⟨0, 0, 0⟩).regexToast = true := by
  refine ⟨by decide, by decide, by decide, by decide⟩
/-- C4: when the guards pass and the matched block exists, handleReplaceMatch
replaces exactly the matched span of the block text by the replacement,
moves the cursor to just after the inserted text in the same scene and
block, and clears the held match. -/
theorem spec_C4 (st : FrState) (replaceText : Str) (d : BackupData)
    (m : FindReplaceMatch) (rev : Revision) (rest : List Revision)
    (sc : Scene) (bs : List Block) (a : String) (t : Str)
    (hd : st.frData = some d) (hm : st.frMatch = some m)
    (hrev : d.revisions = rev :: rest)
    (hsc : rev.scenes.get? m.sceneIndex = some sc)
    (hbs : sc.text = .parsed bs)
    (hb : bs.get? m.blockIndex = some (.textBlock a t)) :
    blockTextAt (handleReplaceMatch st replaceText).frData m.sceneIndex m.blockIndex =
      some (t.take m.matchIndex ++ replaceText ++ t.drop (m.matchIndex + m.matchLength)) ∧
    (handleReplaceMatch st replaceText).frPtr =
      ⟨(m.sceneIndex : Int), (m.blockIndex : Int),
       (m.matchIndex : Int) + (replaceText.length : Int)⟩ ∧
    (handleReplaceMatch st replaceText).frMatch = none := by
  have hslt : m.sceneIndex < rev.scenes.length := (List.get?_eq_some.mp hsc).1
  have hblt : m.blockIndex < bs.length := (List.get?_eq_some.mp hb).1
  simp only [handleReplaceMatch, hd, hm, replaceOneCore, hrev, hsc, hbs, hb]
  simp [blockTextAt, List.getElem?_set_eq_of_lt, hslt, hblt]

/-- Witness for C4: replacing the span of length 2 at index 1 of abcabc by
XY yields aXYabc with the cursor at offset 3. -/
theorem spec_C4_witness :
    blockTextAt (handleReplaceMatch
        ⟨some dataAbc, ⟨0, 0, 0⟩, some ⟨0, 0, 1, 2, "S", str "abcabc"⟩⟩ (str "XY")).frData 0 0 =
      some (str "aXYabc") ∧
    (handleReplaceMatch
        ⟨some dataAbc, ⟨0, 0, 0⟩, some ⟨0, 0, 1, 2, "S", str "abcabc"⟩⟩ (str "XY")).frPtr =
      ⟨0, 0, 3⟩ ∧
    (handleReplaceMatch
        ⟨some dataAbc, ⟨0, 0, 0⟩, some ⟨0, 0, 1, 2, "S", str "abcabc"⟩⟩ (str "XY")).frMatch =
      none := by
  have h := spec_C4 ⟨some dataAbc, ⟨0, 0, 0⟩, some ⟨0, 0, 1, 2, "S", str "abcabc"⟩⟩
    (str "XY") dataAbc ⟨0, 0, 1, 2, "S", str "abcabc"⟩
    ⟨1, 0, [mkScene "S" [.textBlock "left" (str "abcabc")]]⟩ []
    (mkScene "S" [.textBlock "left" (str "abcabc")]) [.textBlock "left" (str "abcabc")]
    "left" (str "abcabc") rfl rfl rfl rfl rfl rfl
  exact ⟨by rw [h.1]; decide, by rw [h.2.1]; decide, h.2.2⟩
theorem extractLoop_mem (z : Str → Option (List Nat)) (e : Str → Str) (b : Bool) (n : Int) :
    ∀ (l : List Chapter) (i0 : Nat) (fn : String) (t : Str),
      (fn, t) ∈ extractChaptersLoop z e b n l i0 →
      trimStr t ≠ [] ∧ ∃ k, k < l.length ∧ fn = txtFilename (i0 + k) := by
  intro l
  induction l with
  | nil => intro i0 fn t h; simp [extractChaptersLoop] at h
  | cons entry rest ih =>
    intro i0 fn t h
    have step : ∀ hh : (fn, t) ∈ extractChaptersLoop z e b n rest (i0 + 1),
        trimStr t ≠ [] ∧ ∃ k, k < (entry :: rest).length ∧ fn = txtFilename (i0 + k) := by
      intro hh
      obtain ⟨h1, k, hk, hfn⟩ := ih (i0 + 1) fn t hh
      refine ⟨h1, k + 1, by simp only [List.length_cons]; omega, ?_⟩
      rw [hfn]; congr 1; omega
    rw [extractChaptersLoop] at h
    cases hp : processedChapterText z e b n entry with
    | none => rw [hp] at h; exact step h
    | some t2 =>
      rw [hp] at h
      dsimp only at h
      by_cases hg : t2 ≠ [] ∧ 0 < (trimStr t2).length
      · rw [if_pos hg] at h
        rcases List.mem_cons.mp h with h | h
        · have ht : t = t2 := congrArg Prod.snd h
          have hfn : fn = txtFilename i0 := congrArg Prod.fst h
          refine ⟨?_, 0, by simp, by simp [hfn]⟩
          rw [ht]
          exact List.length_pos.mp hg.2
        · exact step h
      · rw [if_neg hg] at h
        exact step h

theorem extractLoop_mem_of (z : Str → Option (List Nat)) (e : Str → Str) (b : Bool) (n : Int) :
    ∀ (l : List Chapter) (i0 k : Nat) (entry : Chapter) (t2 : Str),
      l.get? k = some entry →
      processedChapterText z e b n entry = some t2 →
      t2 ≠ [] → 0 < (trimStr t2).length →
      (txtFilename (i0 + k), t2) ∈ extractChaptersLoop z e b n l i0 := by
  intro l
  induction l with
  | nil => intro i0 k entry t2 h; simp at h
  | cons hd rest ih =>
    intro i0 k entry t2 hget hp hne htrim
    cases k with
    | zero =>
      obtain rfl : hd = entry := by simpa using hget
      simp only [extractChaptersLoop, hp, Nat.add_zero]
      rw [if_pos ⟨hne, htrim⟩]
      exact List.mem_cons_self _ _
    | succ k =>
      have hrest : rest.get? k = some entry := by simpa using hget
      have hmem := ih (i0 + 1) k entry t2 hrest hp hne htrim
      have harith : i0 + 1 + k = i0 + (k + 1) := by omega
      rw [harith] at hmem
      cases hp2 : processedChapterText z e b n hd with
      | none => simp only [extractChaptersLoop, hp2]; exact hmem
      | some u =>
        simp only [extractChaptersLoop, hp2]
        by_cases hg : u ≠ [] ∧ 0 < (trimStr u).length
        · rw [if_pos hg]; exact List.mem_cons_of_mem _ hmem
        · rw [if_neg hg]; exact hmem

/-- C7 (amended): every emitted chapter has nonempty trimmed text and a
filename derived from some position in the full chapter list, and every
chapter whose processed text is nonempty after trimming is emitted under the
filename of its own one-based position in that list, so exclusions leave
gaps in the numbering. -/
theorem spec_C7 (z : Str → Option (List Nat)) (e : Str → Str) (b : Bool) (n : Int)
    (chapters : List Chapter) :
    (∀ fn t, (fn, t) ∈ handleExtractChapters z e b n chapters →
      trimStr t ≠ [] ∧ ∃ k, k < chapters.length ∧ fn = txtFilename k) ∧
    (∀ k entry t2, chapters.get? k = some entry →
      processedChapterText z e b n entry = some t2 →
      t2 ≠ [] → 0 < (trimStr t2).length →
      (txtFilename k, t2) ∈ handleExtractChapters z e b n chapters) := by
  constructor
  · intro fn t h
    obtain ⟨h1, k, hk, hfn⟩ := extractLoop_mem z e b n chapters 0 fn t h
    exact ⟨h1, k, hk, by simpa using hfn⟩
  · intro k entry t2 hget hp hne htrim
    have h := extractLoop_mem_of z e b n chapters 0 k entry t2 hget hp hne htrim
    simpa using h

/-- Witness for C7 on the two-chapter instance whose first chapter extracts
to empty text. -/
theorem spec_C7_witness :
    trimStr (str "b") ≠ [] ∧
    (∃ k, k < chaptersC7.length ∧ "C02.txt" = txtFilename k) ∧
    ("C02.txt", str "b") ∈ handleExtractChapters zipBytesC7 extractTextC7 false 0 chaptersC7 := by
  have h1 := (spec_C7 zipBytesC7 extractTextC7 false 0 chaptersC7).1 "C02.txt" (str "b")
    (by decide)
  have h2 := (spec_C7 zipBytesC7 extractTextC7 false 0 chaptersC7).2 1 ⟨str "Two", str "h2"⟩
    (str "b") (by decide) (by decide) (by decide) (by decide)
  exact ⟨h1.1, h1.2, by simpa using h2⟩
theorem dedupGo_mem : ∀ (l : List Chapter) (seen : List Str) (c : Chapter),
    c ∈ dedupGo l seen → c.href ≠ [] ∧ c.href ∉ seen := by
  intro l
  induction l with
  | nil => intro seen c h; simp [dedupGo] at h
  | cons hd rest ih =>
    intro seen c h
    rw [dedupGo] at h
    by_cases hk : hd.href ≠ [] ∧ hd.href ∉ seen
    · rw [if_pos hk] at h
      rcases List.mem_cons.mp h with h | h
      · subst h; exact hk
      · have := ih _ c h
        exact ⟨this.1, fun hm => this.2 (List.mem_cons_of_mem _ hm)⟩
    · rw [if_neg hk] at h
      exact ih _ c h

theorem dedupGo_sublist : ∀ (l : List Chapter) (seen : List Str),
    (dedupGo l seen).Sublist l := by
  intro l
  induction l with
  | nil => intro seen; simp [dedupGo]
  | cons hd rest ih =>
    intro seen
    rw [dedupGo]
    by_cases hk : hd.href ≠ [] ∧ hd.href ∉ seen
    · rw [if_pos hk]; exact (ih _).cons₂ hd
    · rw [if_neg hk]; exact (ih _).cons hd

theorem dedupGo_filter : ∀ (l : List Chapter) (seen : List Str) (h : Str), h ≠ [] →
    (dedupGo l seen).filter (fun c => decide (c.href = h)) =
      if h ∈ seen then [] else (l.filter (fun c => decide (c.href = h))).take 1 := by
  intro l
  induction l with
  | nil => intro seen h hne; simp [dedupGo]
  | cons hd rest ih =>
    intro seen h hne
    rw [dedupGo]
    by_cases hk : hd.href ≠ [] ∧ hd.href ∉ seen
    · rw [if_pos hk]
      by_cases hh : hd.href = h
      · have hns : h ∉ seen := hh ▸ hk.2
        rw [List.filter_cons_of_pos (by simp [hh]), ih _ h hne,
            if_pos (by simp [hh]), if_neg hns,
            List.filter_cons_of_pos (by simp [hh])]
        simp
      · rw [List.filter_cons_of_neg (by simp [hh]), ih _ h hne,
            List.filter_cons_of_neg (by simp [hh])]
        have hiff : h ∈ hd.href :: seen ↔ h ∈ seen := by
          constructor
          · intro hmem
            rcases List.mem_cons.mp hmem with h1 | h1
            · exact absurd h1.symm hh
            · exact h1
          · exact List.mem_cons_of_mem _
        by_cases hsn : h ∈ seen
        · rw [if_pos (hiff.mpr hsn), if_pos hsn]
        · rw [if_neg (fun hmem => hsn (hiff.mp hmem)), if_neg hsn]
    · rw [if_neg hk]
      rw [ih _ h hne]
      by_cases hh : hd.href = h
      · have hin : h ∈ seen := by
          rcases not_and_or.mp hk with h1 | h1
          · exact absurd (hh.symm ▸ hne) (by simpa using h1)
          · exact hh ▸ not_not.mp h1
        rw [if_pos hin, if_pos hin]
      · rw [List.filter_cons_of_neg (by simp [hh])]

theorem dedupGo_nodup : ∀ (l : List Chapter) (seen : List Str),
    ((dedupGo l seen).map Chapter.href).Nodup ∧
    ∀ x ∈ (dedupGo l seen).map Chapter.href, x ∉ seen := by
  intro l
  induction l with
  | nil => intro seen; simp [dedupGo]
  | cons hd rest ih =>
    intro seen
    rw [dedupGo]
    by_cases hk : hd.href ≠ [] ∧ hd.href ∉ seen
    · rw [if_pos hk]
      obtain ⟨ihn, ihs⟩ := ih (hd.href :: seen)
      constructor
      · rw [List.map_cons, List.nodup_cons]
        exact ⟨fun hm => (ihs _ hm) (List.mem_cons_self _ _), ihn⟩
      · intro x hx
        rw [List.map_cons] at hx
        rcases List.mem_cons.mp hx with h1 | h1
        · exact h1 ▸ hk.2
        · exact fun hm => (ihs x h1) (List.mem_cons_of_mem _ hm)
    · rw [if_neg hk]
      exact ih seen

/-- C8 (amended): deduplication yields a sublist of the input in which every
entry has a nonempty resolved path, for every nonempty path exactly the
first input entry with that path survives, and the surviving paths are
pairwise distinct. -/
theorem spec_C8 (l : List Chapter) :
    (∀ c ∈ deduplicateChapters l, c.href ≠ []) ∧
    (deduplicateChapters l).Sublist l ∧
    (∀ h : Str, h ≠ [] →
      (deduplicateChapters l).filter (fun c => decide (c.href = h)) =
        (l.filter (fun c => decide (c.href = h))).take 1) ∧
    ((deduplicateChapters l).map Chapter.href).Nodup := by
  refine ⟨fun c hc => (dedupGo_mem l [] c hc).1, dedupGo_sublist l [], ?_, (dedupGo_nodup l []).1⟩
  intro h hne
  rw [deduplicateChapters, dedupGo_filter l [] h hne, if_neg (by simp)]

/-- Witness for C8 on a three-entry list with a duplicated path x. -/
theorem spec_C8_witness :
    (deduplicateChapters [⟨str "A", str "x"⟩, ⟨str "B", str "x"⟩, ⟨str "C", str "y"⟩]).filter
        (fun c => decide (c.href = str "x")) =
      ([⟨str "A", str "x"⟩, ⟨str "B", str "x"⟩, ⟨str "C", str "y"⟩].filter
        (fun c => decide (c.href = str "x"))).take 1 ∧
    ((deduplicateChapters [⟨str "A", str "x"⟩, ⟨str "B", str "x"⟩, ⟨str "C", str "y"⟩]).map
        Chapter.href).Nodup := by
  exact ⟨(spec_C8 _).2.2.1 (str "x") (by decide), (spec_C8 _).2.2.2⟩
/-- C2 (amended): whichever ToC the OPF names (NCX or nav), the chapter list
is the deduplicated extraction carried out against the directory of the OPF
document itself, not the directory of the ToC document. -/
theorem spec_C2 (zipGet : Str → Option Str) (parseXmlF : Str → Option XmlDocM)
    (parseHtmlF : Str → Option NavDocM)
    (containerContent rootfilePath opfContent tocContent tocHref : Str)
    (containerDoc opfDoc : XmlDocM)
    (hc : readFileFromZip zipGet (str "META-INF/container.xml") = some containerContent)
    (hcd : parseXmlF containerContent = some containerDoc)
    (hrf : containerDoc.rootfileFullPath = some rootfilePath)
    (hrfne : rootfilePath ≠ [])
    (ho : readFileFromZip zipGet rootfilePath = some opfContent)
    (hod : parseXmlF opfContent = some opfDoc)
    (ht : readFileFromZip zipGet (resolvePath tocHref (dirOf rootfilePath)) = some tocContent) :
    (∀ ncxDoc, findTocHref opfDoc = some (tocHref, TocType.ncx) →
      parseXmlF tocContent = some ncxDoc →
      getChapterListFromEpub zipGet parseXmlF parseHtmlF =
        deduplicateChapters (extractChaptersFromNcx ncxDoc.navPoints (dirOf rootfilePath))) ∧
    (∀ navDoc, findTocHref opfDoc = some (tocHref, TocType.nav) →
      parseHtmlF tocContent = some navDoc →
      getChapterListFromEpub zipGet parseXmlF parseHtmlF =
        deduplicateChapters (extractChaptersFromNav navDoc (dirOf rootfilePath))) := by
  have hopf : findOpfPath zipGet parseXmlF = some (rootfilePath, dirOf rootfilePath) := by
    simp [findOpfPath, hc, hcd, hrf, hrfne]
  constructor
  · intro ncxDoc htoc hparse
    simp [getChapterListFromEpub, hopf, ho, hod, htoc, ht, hparse]
  · intro navDoc htoc hparse
    simp [getChapterListFromEpub, hopf, ho, hod, htoc, ht, hparse]

/-- Witness for C2 on the concrete EPUB instance whose NCX lives in a nav
subdirectory of the OPF directory. -/
theorem spec_C2_witness :
    getChapterListFromEpub zipGetC2 parseXmlC2 parseHtmlC2 =
      deduplicateChapters (extractChaptersFromNcx xmlDocNcxC2.navPoints
        (dirOf (str "OEBPS/content.opf"))) :=
  (spec_C2 zipGetC2 parseXmlC2 parseHtmlC2 (str "containerDoc") (str "OEBPS/content.opf")
    (str "opfDoc") (str "ncxDoc") (str "nav/toc.ncx") xmlDocContainerC2 xmlDocOpfC2
    rfl rfl rfl (by decide) rfl rfl rfl).1
    xmlDocNcxC2 rfl rfl
theorem tryBlockNext_rx (compile : Str → Option JsRegex) (p : Str)
    (h : compile p = none) (b : Block) (s : Nat) :
    tryBlockNext compile p true b s = .miss ∨ tryBlockNext compile p true b s = .err := by
  cases b with
  | nullish => left; rfl
  | other tf => left; rfl
  | textBlock a t =>
    rw [tryBlockNext]
    by_cases h1 : t.length ≤ s ∧ 0 < t.length
    · rw [if_pos h1]; left; rfl
    · rw [if_neg h1, if_neg (by simp), if_pos rfl, h]; right; rfl

theorem scanBlocksNext_rx (compile : Str → Option JsRegex) (p : Str)
    (h : compile p = none) (resume : Bool) (rb ro : Int) :
    ∀ (l : List Block) (j : Nat),
      scanBlocksNext compile p true resume rb ro l j = .miss ∨
      scanBlocksNext compile p true resume rb ro l j = .err := by
  intro l
  induction l with
  | nil => intro j; left; rfl
  | cons b rest ih =>
    intro j
    rw [scanBlocksNext]
    rcases tryBlockNext_rx compile p h b
        (if resume ∧ (j : Int) = rb then clampNat ro else 0) with h2 | h2
    · rw [h2]; exact ih (j + 1)
    · rw [h2]; right; rfl

theorem scanScenesNext_rx (compile : Str → Option JsRegex) (p : Str)
    (h : compile p = none) (startScene : Nat) (rb ro : Int) :
    ∀ (l : List Scene) (i : Nat),
      scanScenesNext compile p true startScene rb ro l i = .done ∨
      scanScenesNext compile p true startScene rb ro l i = .err := by
  intro l
  induction l with
  | nil => intro i; left; rfl
  | cons s rest ih =>
    intro i
    rw [scanScenesNext]
    cases hsb : sceneBlocks? s with
    | none => exact ih (i + 1)
    | some bs =>
      rcases scanBlocksNext_rx compile p h (i = startScene) rb ro
          (bs.drop (if i = startScene then clampNat rb else 0))
          (if i = startScene then clampNat rb else 0) with h2 | h2
      · dsimp only; rw [h2]; exact ih (i + 1)
      · dsimp only; rw [h2]; right; rfl

/-- C3 (amended): when the regex constructor throws, findNextMatchInternal
returns no match with the pointer unchanged, and the findNext handler stores
that null result, clearing any held match. -/
theorem spec_C3 (compile : Str → Option JsRegex) (p : Str) (h : compile p = none) :
    (∀ (data : BackupData) (ptr : FindReplacePointer),
      (findNextMatchInternal compile p true data ptr).found = none ∧
      (findNextMatchInternal compile p true data ptr).ptrAfter = ptr) ∧
    (∀ st : FrState, st.frData ≠ none →
      handleFindNextMatch compile p true st = { st with frMatch := none }) := by
  have hint : ∀ (data : BackupData) (ptr : FindReplacePointer),
      (findNextMatchInternal compile p true data ptr).found = none ∧
      (findNextMatchInternal compile p true data ptr).ptrAfter = ptr := by
    intro data ptr
    rw [findNextMatchInternal]
    cases hrev : data.revisions with
    | nil => exact ⟨rfl, rfl⟩
    | cons rev rest =>
      dsimp only
      by_cases hlen : (rev.scenes.length : Int) ≤
          (if ptr.scene < 0 then (⟨0, 0, 0⟩ : FindReplacePointer) else ptr).scene
      · rw [if_pos hlen]; exact ⟨rfl, rfl⟩
      · rw [if_neg hlen]
        rcases scanScenesNext_rx compile p h
            (clampNat (if ptr.scene < 0 then (⟨0, 0, 0⟩ : FindReplacePointer) else ptr).scene)
            (if ptr.scene < 0 then (⟨0, 0, 0⟩ : FindReplacePointer) else ptr).block
            (if ptr.scene < 0 then (⟨0, 0, 0⟩ : FindReplacePointer) else ptr).offset
            (rev.scenes.drop (clampNat
              (if ptr.scene < 0 then (⟨0, 0, 0⟩ : FindReplacePointer) else ptr).scene))
            (clampNat (if ptr.scene < 0 then (⟨0, 0, 0⟩ : FindReplacePointer) else ptr).scene)
            with h2 | h2
        · rw [h2]; exact ⟨rfl, rfl⟩
        · rw [h2]; exact ⟨rfl, rfl⟩
  refine ⟨hint, ?_⟩
  intro st hd
  cases hsd : st.frData with
  | none => exact absurd hsd hd
  | some d =>
    have h2 := hint d st.frPtr
    rw [handleFindNextMatch, hsd]
    dsimp only
    rw [if_neg (by simp)]
    cases st with
    | mk fd fp fm =>
      simp only at h2 ⊢
      rw [h2.1, h2.2]

/-- Witness for C3 with the always-throwing compile oracle on a concrete
record and state. -/
theorem spec_C3_witness :
    handleFindNextMatch compileNone (str "[") true
        ⟨some dataAaa, ⟨2, 3, 4⟩, some m0C3⟩ =
      ⟨some dataAaa, ⟨2, 3, 4⟩, none⟩ := by
  have h := (spec_C3 compileNone (str "[") rfl).2
    ⟨some dataAaa, ⟨2, 3, 4⟩, some m0C3⟩ (by simp)
  simpa using h
theorem occs_pairwise (t p : Str) : (occs t p).Pairwise (· < ·) :=
  (List.pairwise_lt_range _).filter _

theorem mem_occs {t p : Str} {k : Nat} :
    k ∈ occs t p ↔ k < t.length + 1 ∧ matchAt t p k := by
  simp [occs, List.mem_filter, List.mem_range]

theorem matchAt_le {t p : Str} {k : Nat} (hp : p ≠ []) (h : matchAt t p k = true) :
    k + p.length ≤ t.length := by
  have h2 : (t.drop k).take p.length = p := of_decide_eq_true h
  have hlen := congrArg List.length h2
  have hple : 0 < p.length := List.length_pos.mpr hp
  simp only [List.length_take, List.length_drop] at hlen
  omega

theorem find?_min_sorted : ∀ {l : List Nat}, l.Pairwise (· < ·) → ∀ {s k : Nat},
    l.find? (fun x => decide (s ≤ x)) = some k → ∀ k' ∈ l, s ≤ k' → k ≤ k' := by
  intro l
  induction l with
  | nil => intro _ s k h; simp at h
  | cons a rest ih =>
    intro hpw s k hfind k' hk' hs
    by_cases ha : s ≤ a
    · rw [List.find?_cons_of_pos _ (by simpa using ha)] at hfind
      obtain rfl : a = k := Option.some.inj hfind
      rcases List.mem_cons.mp hk' with rfl | hmem
      · exact Nat.le_refl _
      · exact Nat.le_of_lt (List.rel_of_pairwise_cons hpw hmem)
    · rw [List.find?_cons_of_neg _ (by simpa using ha)] at hfind
      rcases List.mem_cons.mp hk' with rfl | hmem
      · exact absurd hs ha
      · exact ih hpw.of_cons hfind k' hmem hs

theorem jsIndexOf_none {t p : Str} (hp : p ≠ []) {s : Nat}
    (h : jsIndexOf t p s = none) : ∀ k ∈ occs t p, k < s := by
  rw [jsIndexOf, if_neg hp] at h
  intro k hk
  have h2 := List.find?_eq_none.mp h k hk
  simpa using Nat.lt_of_not_le (fun hc => h2 (by simpa using hc))

theorem jsIndexOf_some {t p : Str} (hp : p ≠ []) {s k : Nat}
    (h : jsIndexOf t p s = some k) :
    s ≤ k ∧ k ∈ occs t p ∧ ∀ k' ∈ occs t p, s ≤ k' → k ≤ k' := by
  rw [jsIndexOf, if_neg hp] at h
  exact ⟨by simpa using List.find?_some h, List.mem_of_find?_eq_some h,
         find?_min_sorted (occs_pairwise t p) h⟩

theorem greedyPick_nil {plen : Nat} : ∀ {l : List Nat} {thr : Nat},
    (∀ k ∈ l, k < thr) → greedyPick plen l thr = [] := by
  intro l
  induction l with
  | nil => intro thr _; rfl
  | cons a rest ih =>
    intro thr h
    rw [greedyPick, if_neg (by have := h a (List.mem_cons_self a rest); omega)]
    exact ih fun k hk => h k (List.mem_cons_of_mem _ hk)

theorem greedyPick_cons {plen : Nat} (hpl : 1 ≤ plen) : ∀ {l : List Nat},
    l.Pairwise (· < ·) → ∀ {s k : Nat},
    l.find? (fun x => decide (s ≤ x)) = some k →
    greedyPick plen l s = k :: greedyPick plen l (k + plen) := by
  intro l
  induction l with
  | nil => intro _ s k h; simp at h
  | cons a rest ih =>
    intro hpw s k hfind
    by_cases ha : s ≤ a
    · rw [List.find?_cons_of_pos _ (by simpa using ha)] at hfind
      obtain rfl : a = k := Option.some.inj hfind
      rw [greedyPick, if_pos ha]
      conv_rhs => rw [greedyPick]
      rw [if_neg (by omega)]
    · rw [List.find?_cons_of_neg _ (by simpa using ha)] at hfind
      have hsk : s ≤ k := by simpa using List.find?_some hfind
      have hak : a < s := Nat.lt_of_not_le ha
      rw [greedyPick, if_neg (by omega), ih hpw.of_cons hfind]
      conv_rhs => rw [greedyPick]
      rw [if_neg (by omega)]

theorem segmentsOf_ne_nil (t : Str) (plen : Nat) (idxs : List Nat) (start : Nat) :
    segmentsOf t plen idxs start ≠ [] := by
  cases idxs <;> simp [segmentsOf]

theorem intercalate_cons_ne (R a : Str) {rest : List Str} (h : rest ≠ []) :
    List.intercalate R (a :: rest) = a ++ R ++ List.intercalate R rest := by
  cases rest with
  | nil => exact absurd rfl h
  | cons b tl => simp [List.intercalate]

theorem replaceAllLitGo_spec (t p R : Str) (hp : p ≠ []) :
    ∀ (fuel li : Nat), t.length + 1 ≤ fuel + li →
      replaceAllLitGo t p R li fuel =
        (List.intercalate R (segmentsOf t p.length (greedyPick p.length (occs t p) li) li),
         (greedyPick p.length (occs t p) li).length) := by
  intro fuel
  induction fuel with
  | zero =>
    intro li hli
    have hgp : greedyPick p.length (occs t p) li = [] :=
      greedyPick_nil (fun k hk => by have := (mem_occs.mp hk).1; omega)
    rw [hgp]
    simp [replaceAllLitGo, segmentsOf, List.intercalate]
  | succ fuel ih =>
    intro li hli
    rw [replaceAllLitGo]
    cases hio : jsIndexOf t p li with
    | none =>
      have hgp : greedyPick p.length (occs t p) li = [] :=
        greedyPick_nil (jsIndexOf_none hp hio)
      rw [hgp]
      simp [segmentsOf, List.intercalate]
    | some idx =>
      dsimp only
      obtain ⟨hsle, hmem, _⟩ := jsIndexOf_some hp hio
      have hplen : 1 ≤ p.length := List.length_pos.mpr hp
      have hgp : greedyPick p.length (occs t p) li =
          idx :: greedyPick p.length (occs t p) (idx + p.length) := by
        apply greedyPick_cons hplen (occs_pairwise t p)
        rw [jsIndexOf, if_neg hp] at hio
        exact hio
      rw [ih (idx + p.length) (by omega), hgp, segmentsOf,
          intercalate_cons_ne _ _ (segmentsOf_ne_nil _ _ _ _)]
      simp

theorem replaceAllBlockLit_spec (t p R : Str) (hp : p ≠ []) :
    replaceAllBlockLit t p R = (List.intercalate R (litSplit t p), occCount t p) := by
  rw [replaceAllBlockLit, replaceAllLitGo_spec t p R hp (t.length + 1) 0 (by omega)]
  rfl

theorem occs_nil {p : Str} (hp : p ≠ []) : occs [] p = [] := by
  have hm : matchAt [] p 0 = false := by
    rw [matchAt]
    simp only [List.drop_nil, List.take_nil]
    exact decide_eq_false (fun h => hp h.symm)
  simp [occs, hm]

theorem occCount_nil {p : Str} (hp : p ≠ []) : occCount [] p = 0 := by
  simp [occCount, greedyOccs, occs_nil hp, greedyPick]

theorem replaceAllBlocksGo_spec (compile : Str → Option JsRegex) (p R : Str) (hp : p ≠ []) :
    ∀ (bs : List Block), (∀ b ∈ bs, b ≠ .nullish) →
      ∃ bs2, replaceAllBlocksGo compile p false R bs =
        .ok (bs2, (bs.map (blockOccCount p)).sum) := by
  intro bs
  induction bs with
  | nil => intro _; exact ⟨[], rfl⟩
  | cons b rest ih =>
    intro hnn
    obtain ⟨rest2, hrest⟩ := ih (fun x hx => hnn x (List.mem_cons_of_mem _ hx))
    cases b with
    | nullish => exact absurd rfl (hnn _ (List.mem_cons_self _ _))
    | other tf =>
      refine ⟨.other tf :: rest2, ?_⟩
      rw [replaceAllBlocksGo, hrest]
      simp [blockOccCount]
    | textBlock a t =>
      by_cases hlen : 0 < t.length
      · refine ⟨.textBlock a (List.intercalate R (litSplit t p)) :: rest2, ?_⟩
        rw [replaceAllBlocksGo, if_pos hlen]
        rw [show replaceAllBlock compile p false R t = some (replaceAllBlockLit t p R) from rfl,
            replaceAllBlockLit_spec t p R hp, hrest]
        simp [blockOccCount]
      · have ht : t = [] := by
          cases t with
          | nil => rfl
          | cons c cs => exact absurd (by simp) hlen
        refine ⟨.textBlock a t :: rest2, ?_⟩
        rw [replaceAllBlocksGo, if_neg hlen, hrest]
        subst ht
        simp [blockOccCount, occCount_nil hp]

theorem replaceAllScene_spec (compile : Str → Option JsRegex) (p R : Str) (hp : p ≠ [])
    (sc : Scene) (h : ∀ bs, sc.text = .parsed bs → ∀ b ∈ bs, b ≠ .nullish) :
    (replaceAllScene compile p false R sc).2 = sceneOccCount p sc := by
  cases htext : sc.text with
  | invalid => simp [replaceAllScene, sceneOccCount, htext]
  | noBlocks => simp [replaceAllScene, sceneOccCount, htext]
  | parsed bs =>
    obtain ⟨bs2, hok⟩ := replaceAllBlocksGo_spec compile p R hp bs (h bs htext)
    simp [replaceAllScene, sceneOccCount, htext, hok]

/-- C5 (amended): for a nonempty literal pattern on a record none of whose
parsed block arrays holds a null element, replaceAll reports exactly the
number of non-overlapping occurrences of the pattern across all text blocks
of all scenes of the first revision. -/
theorem spec_C5 (compile : Str → Option JsRegex) (p R : Str) (now : Int)
    (st : FrState) (d : BackupData)
    (hp : p ≠ []) (hd : st.frData = some d) (hnull : noNullBlocks d = true) :
    (handleReplaceAllMatches compile p false R now st).2 = docOccCount p d := by
  rw [handleReplaceAllMatches, hd]
  dsimp only
  rw [if_neg (by simp [hp])]
  cases hrev : d.revisions with
  | nil => simp [docOccCount, hrev]
  | cons rev rest =>
    dsimp only
    have hsc : ∀ sc ∈ rev.scenes,
        (replaceAllScene compile p false R sc).2 = sceneOccCount p sc := by
      intro sc hscm
      apply replaceAllScene_spec compile p R hp
      intro bs htext b hbm
      rw [noNullBlocks, hrev] at hnull
      have h1 := (List.all_eq_true.mp hnull) sc hscm
      rw [htext] at h1
      have h2 := (List.all_eq_true.mp h1) b hbm
      exact of_decide_eq_true h2
    have hmap : (rev.scenes.map (replaceAllScene compile p false R)).map Prod.snd =
        rev.scenes.map (sceneOccCount p) := by
      rw [List.map_map]
      exact List.map_congr_left (fun sc hscm => hsc sc hscm)
    simp only [docOccCount, hrev]
    simpa using congrArg List.sum hmap

/-- Witness for C5 on the aaa record with the pattern a. -/
theorem spec_C5_witness :
    (handleReplaceAllMatches compileNone (str "a") false (str "z") 7
      ⟨some dataAaa, ⟨0, 0, 0⟩, none⟩).2 = docOccCount (str "a") dataAaa := by
  exact spec_C5 compileNone (str "a") (str "z") 7 _ dataAaa (by decide) rfl (by decide)

/-- C9: the literal replace-all rebuild equals the intercalation of the
between-occurrence segments with the replacement inserted verbatim, and both
the regex replace-all path and the single replace splice a replacement
containing the characters dollar-ampersand literally. -/
theorem spec_C9 :
    (∀ (t p R : Str), p ≠ [] →
      (replaceAllBlockLit t p R).1 = List.intercalate R (litSplit t p)) ∧
    replaceAllBlock compileLit (str "b") true (str "$&") (str "abc") =
      some (str "a$&c", 1) ∧
    blockTextAt (handleReplaceMatch
        ⟨some dataAbc, ⟨0, 0, 0⟩, some ⟨0, 0, 1, 1, "S", str "abcabc"⟩⟩
        (str "$&")).frData 0 0 = some (str "a$&cabc") := by
  refine ⟨fun t p R hp => by rw [replaceAllBlockLit_spec t p R hp], by decide, by decide⟩

/-- Witness for C9 on the text abab with pattern b. -/
theorem spec_C9_witness :
    (replaceAllBlockLit (str "abab") (str "b") (str "$&")).1 =
      List.intercalate (str "$&") (litSplit (str "abab") (str "b")) :=
  spec_C9.1 (str "abab") (str "b") (str "$&") (by decide)
theorem find?_zero_head (l : List Nat) :
    l.find? (fun x => decide (0 ≤ x)) = l.head? := by
  cases l <;> simp

theorem split_min {l : List Nat} (hpw : l.Pairwise (· < ·)) :
    ∀ {s k : Nat}, l.find? (fun x => decide (s ≤ x)) = some k →
    l.filter (fun x => decide (s ≤ x)) = k :: l.filter (fun x => decide (k + 1 ≤ x)) := by
  induction l with
  | nil => intro s k h; simp at h
  | cons a rest ih =>
    intro s k h
    by_cases ha : s ≤ a
    · rw [List.find?_cons_of_pos _ (by simpa using ha)] at h
      obtain rfl : a = k := Option.some.inj h
      rw [List.filter_cons_of_pos (by simpa using ha),
          List.filter_cons_of_neg (by simp),
          List.filter_eq_self.mpr
            (fun x hx => by
              have := List.rel_of_pairwise_cons hpw hx
              simp; omega),
          List.filter_eq_self.mpr
            (fun x hx => by
              have := List.rel_of_pairwise_cons hpw hx
              simp; omega)]
    · rw [List.find?_cons_of_neg _ (by simpa using ha)] at h
      have hsk : s ≤ k := by simpa using List.find?_some h
      rw [List.filter_cons_of_neg (by simpa using ha), ih hpw.of_cons h,
          List.filter_cons_of_neg (by simp; omega)]

theorem filter_ge_nil {l : List Nat} {s : Nat}
    (h : l.find? (fun x => decide (s ≤ x)) = none) :
    l.filter (fun x => decide (s ≤ x)) = [] := by
  rw [List.filter_eq_nil_iff]
  intro x hx
  simpa using List.find?_eq_none.mp h x hx

theorem pairwise_sorted_rel {R : Nat → Nat → Prop} :
    ∀ {l : List Nat}, l.Pairwise (· < ·) → l.Pairwise R → ∀ {a b : Nat},
      a ∈ l → b ∈ l → a < b → R a b := by
  intro l
  induction l with
  | nil => intro _ _ a b ha; simp at ha
  | cons c rest ih =>
    intro hlt hR a b ha hb hab
    rcases List.mem_cons.mp ha with rfl | ha2
    · rcases List.mem_cons.mp hb with rfl | hb2
      · omega
      · exact List.rel_of_pairwise_cons hR hb2
    · rcases List.mem_cons.mp hb with rfl | hb2
      · have := List.rel_of_pairwise_cons hlt ha2
        omega
      · exact ih hlt.of_cons hR.of_cons ha2 hb2 hab

theorem posOfBlocks_append (p : Str) (i : Nat) :
    ∀ (A B : List Block) (j : Nat),
      posOfBlocks p i (A ++ B) j = posOfBlocks p i A j ++ posOfBlocks p i B (j + A.length) := by
  intro A
  induction A with
  | nil => intro B j; simp [posOfBlocks]
  | cons b rest ih =>
    intro B j
    have harith : j + 1 + rest.length = j + (rest.length + 1) := by omega
    cases b with
    | textBlock a t =>
      simp only [List.cons_append, posOfBlocks, List.append_assoc, List.length_cons, harith,
        List.append_eq]
      rw [ih B (j + 1), harith]
    | other tf =>
      simp only [List.cons_append, posOfBlocks, List.append_assoc, List.length_cons, harith,
        List.append_eq]
      rw [ih B (j + 1), harith]
    | nullish =>
      simp only [List.cons_append, posOfBlocks, List.append_assoc, List.length_cons, harith,
        List.append_eq]
      rw [ih B (j + 1), harith]

theorem mem_posOfBlocks (p : Str) (i : Nat) :
    ∀ (l : List Block) (j : Nat) (x : Nat × Nat × Nat),
      x ∈ posOfBlocks p i l j →
      x.1 = i ∧ j ≤ x.2.1 ∧ x.2.1 < j + l.length ∧
        ∃ a t, l.get? (x.2.1 - j) = some (.textBlock a t) ∧ x.2.2 ∈ occs t p := by
  intro l
  induction l with
  | nil => intro j x hx; simp [posOfBlocks] at hx
  | cons b rest ih =>
    intro j x hx
    have step : x ∈ posOfBlocks p i rest (j + 1) →
        x.1 = i ∧ j ≤ x.2.1 ∧ x.2.1 < j + (b :: rest).length ∧
          ∃ a t, (b :: rest).get? (x.2.1 - j) = some (.textBlock a t) ∧ x.2.2 ∈ occs t p := by
      intro hx2
      obtain ⟨h1, h2, h3, a, t, h4, h5⟩ := ih (j + 1) x hx2
      refine ⟨h1, by omega, by simp [List.length_cons]; omega, a, t, ?_, h5⟩
      rw [show x.2.1 - j = (x.2.1 - (j + 1)) + 1 from by omega]
      simpa using h4
    cases b with
    | textBlock a t =>
      simp only [posOfBlocks] at hx
      rcases List.mem_append.mp hx with hx | hx
      · obtain ⟨k, hk, rfl⟩ := List.mem_map.mp hx
        refine ⟨rfl, Nat.le_refl _, by simp only [List.length_cons]; omega, a, t, ?_, hk⟩
        simp
      · exact step hx
    | other tf =>
      simp only [posOfBlocks, List.nil_append] at hx
      exact step hx
    | nullish =>
      simp only [posOfBlocks, List.nil_append] at hx
      exact step hx

theorem mem_posOfScenes (p : Str) :
    ∀ (l : List Scene) (i : Nat) (x : Nat × Nat × Nat),
      x ∈ posOfScenes p l i →
      i ≤ x.1 ∧ x.1 < i + l.length ∧
        ∃ sc bs, l.get? (x.1 - i) = some sc ∧ sceneBlocks? sc = some bs ∧
          x ∈ posOfBlocks p x.1 bs 0 := by
  intro l
  induction l with
  | nil => intro i x hx; simp [posOfScenes] at hx
  | cons s rest ih =>
    intro i x hx
    rw [posOfScenes] at hx
    rcases List.mem_append.mp hx with hx | hx
    · cases hsb : sceneBlocks? s with
      | none => rw [hsb] at hx; simp at hx
      | some bs =>
        rw [hsb] at hx
        obtain ⟨h1, _, _, _⟩ := mem_posOfBlocks p i bs 0 x hx
        refine ⟨by omega, by simp [List.length_cons]; omega, s, bs, ?_, hsb, h1 ▸ hx⟩
        simp [show x.1 - i = 0 from by omega]
    · obtain ⟨h1, h2, sc, bs, h3, h4, h5⟩ := ih (i + 1) x hx
      refine ⟨by omega, by simp [List.length_cons]; omega, sc, bs, ?_, h4, h5⟩
      rw [show x.1 - i = (x.1 - (i + 1)) + 1 from by omega]
      simpa using h3

theorem posOfScenes_take_drop (p : Str) :
    ∀ (n : Nat) (l : List Scene) (i : Nat),
      posOfScenes p l i = posOfScenes p (l.take n) i ++ posOfScenes p (l.drop n) (i + n) := by
  intro n
  induction n with
  | zero => intro l i; simp [posOfScenes]
  | succ n ih =>
    intro l i
    cases l with
    | nil => simp [posOfScenes]
    | cons s rest =>
      rw [List.take_succ_cons, List.drop_succ_cons, posOfScenes, posOfScenes,
          ih rest (i + 1), List.append_assoc,
          show i + 1 + n = i + (n + 1) from by omega]

theorem posOfBlocks_pairwise (p : Str) (i : Nat) :
    ∀ (l : List Block) (j : Nat),
      (posOfBlocks p i l j).Pairwise (fun x y => posLt x y = true) := by
  intro l
  induction l with
  | nil => intro j; simp [posOfBlocks]
  | cons b rest ih =>
    intro j
    cases b with
    | textBlock a t =>
      simp only [posOfBlocks]
      apply List.pairwise_append.mpr
      refine ⟨?_, ih (j + 1), ?_⟩
      · exact List.Pairwise.map (fun k => (i, j, k))
          (fun k k2 hk => by simp [posLt]; omega) (occs_pairwise t p)
      · intro x hx y hy
        obtain ⟨k, _, rfl⟩ := List.mem_map.mp hx
        obtain ⟨hy1, hy2, _, _⟩ := mem_posOfBlocks p i rest (j + 1) y hy
        simp [posLt]
        omega
    | other tf =>
      simp only [posOfBlocks, List.nil_append]
      exact ih (j + 1)
    | nullish =>
      simp only [posOfBlocks, List.nil_append]
      exact ih (j + 1)

theorem posOfScenes_pairwise (p : Str) :
    ∀ (l : List Scene) (i : Nat),
      (posOfScenes p l i).Pairwise (fun x y => posLt x y = true) := by
  intro l
  induction l with
  | nil => intro i; simp [posOfScenes]
  | cons s rest ih =>
    intro i
    rw [posOfScenes]
    apply List.pairwise_append.mpr
    refine ⟨?_, ih (i + 1), ?_⟩
    · cases hsb : sceneBlocks? s with
      | none => simp
      | some bs => exact posOfBlocks_pairwise p i bs 0
    · intro x hx y hy
      have hx1 : x.1 = i := by
        cases hsb : sceneBlocks? s with
        | none => rw [hsb] at hx; simp at hx
        | some bs =>
          rw [hsb] at hx
          exact (mem_posOfBlocks p i bs 0 x hx).1
      obtain ⟨hy1, _, _⟩ := mem_posOfScenes p rest (i + 1) y hy
      simp [posLt]
      omega

theorem jsIndexOf_ge_none {t p : Str} (hp : p ≠ []) {s : Nat} (hs : t.length ≤ s) :
    jsIndexOf t p s = none := by
  rw [jsIndexOf, if_neg hp]
  apply List.find?_eq_none.mpr
  intro k hk
  obtain ⟨hk1, hk2⟩ := mem_occs.mp hk
  have h3 := matchAt_le hp hk2
  have hple : 0 < p.length := List.length_pos.mpr hp
  simp
  omega

theorem jsIndexOf_zero {t p : Str} (hp : p ≠ []) :
    jsIndexOf t p 0 = (occs t p).head? := by
  rw [jsIndexOf, if_neg hp, find?_zero_head]

theorem tryBlockNext_lit (compile : Str → Option JsRegex) {p : Str} (hp : p ≠ [])
    (a : String) (t : Str) (s : Nat) :
    tryBlockNext compile p false (.textBlock a t) s =
      (match jsIndexOf t p s with
       | some idx => .foundB 0 idx p.length t
       | none => .miss) := by
  rw [tryBlockNext]
  by_cases h1 : t.length ≤ s ∧ 0 < t.length
  · rw [if_pos h1, jsIndexOf_ge_none hp h1.1]
  · rw [if_neg h1, if_neg (by simp [hp]), if_neg (by simp)]

theorem scanBlocksNext_false (compile : Str → Option JsRegex) {p : Str} (hp : p ≠ [])
    (rb ro : Int) (i : Nat) :
    ∀ (l : List Block) (j : Nat),
      (match (posOfBlocks p i l j).head? with
       | none => scanBlocksNext compile p false false rb ro l j = .miss
       | some x => ∃ t, scanBlocksNext compile p false false rb ro l j =
           .foundB x.2.1 x.2.2 p.length t) := by
  intro l
  induction l with
  | nil => intro j; exact rfl
  | cons b rest ih =>
    intro j
    rw [scanBlocksNext]
    simp only [Bool.false_eq_true, false_and, if_false]
    cases b with
    | textBlock a t =>
      rw [tryBlockNext_lit compile hp a t 0, jsIndexOf_zero hp]
      simp only [posOfBlocks]
      cases hocc : (occs t p).head? with
      | none =>
        have : occs t p = [] := List.head?_eq_none_iff.mp hocc
        rw [this]
        simpa using ih (j + 1)
      | some k =>
        have : ∃ ks, occs t p = k :: ks := by
          cases hh : occs t p with
          | nil => rw [hh] at hocc; simp at hocc
          | cons k2 ks => rw [hh] at hocc; exact ⟨ks, by simpa using hocc⟩
        obtain ⟨ks, hks⟩ := this
        rw [hks]
        exact ⟨t, rfl⟩
    | other tf =>
      simp only [posOfBlocks, List.nil_append]
      have h2 : tryBlockNext compile p false (.other tf) 0 = .miss := rfl
      rw [h2]
      exact ih (j + 1)
    | nullish =>
      simp only [posOfBlocks, List.nil_append]
      have h2 : tryBlockNext compile p false .nullish 0 = .miss := rfl
      rw [h2]
      exact ih (j + 1)

theorem filter_head_eq_nil {l : List Nat} {q : Nat → Bool}
    (h : (l.filter q).head? = none) : l.filter q = [] :=
  List.head?_eq_none_iff.mp h

theorem scanBlocksNext_resume (compile : Str → Option JsRegex) {p : Str} (hp : p ≠ [])
    (i cj co : Nat) :
    ∀ (l : List Block) (j : Nat), cj ≤ j →
      (match ((posOfBlocks p i l j).filter (fun x =>
            if x.2.1 = cj then decide (co ≤ x.2.2) else true)).head? with
       | none => scanBlocksNext compile p false true (cj : Int) (co : Int) l j = .miss
       | some x => ∃ t, scanBlocksNext compile p false true (cj : Int) (co : Int) l j =
           .foundB x.2.1 x.2.2 p.length t) := by
  intro l
  induction l with
  | nil => intro j _; exact rfl
  | cons b rest ih =>
    intro j hj
    rw [scanBlocksNext]
    have hclamp : clampNat (co : Int) = co := Int.toNat_natCast co
    cases b with
    | textBlock a t =>
      simp only [posOfBlocks, List.filter_append, List.filter_map, List.head?_append]
      by_cases hjc : j = cj
      · rw [if_pos (by constructor <;> simp [hjc]), hclamp,
            tryBlockNext_lit compile hp a t co]
        have hpred : ((fun x => if x.2.1 = cj then decide (co ≤ x.2.2) else true) ∘
            (fun k => (i, j, k))) = (fun k => decide (co ≤ k)) := by
          funext k
          simp [hjc]
        rw [hpred]
        have hhead : ((occs t p).filter (fun k => decide (co ≤ k))).head? =
            jsIndexOf t p co := by
          rw [List.filter_head?, jsIndexOf, if_neg hp]
        cases hio : jsIndexOf t p co with
        | none =>
          rw [hio] at hhead
          rw [filter_head_eq_nil hhead]
          simpa using ih (j + 1) (by omega)
        | some k =>
          rw [hio] at hhead
          obtain ⟨ks, hks⟩ : ∃ ks, (occs t p).filter (fun k => decide (co ≤ k)) = k :: ks := by
            cases hh : (occs t p).filter (fun k => decide (co ≤ k)) with
            | nil => rw [hh] at hhead; simp at hhead
            | cons k2 ks => rw [hh] at hhead; exact ⟨ks, by simpa using hhead⟩
          rw [hks]
          exact ⟨t, rfl⟩
      · rw [if_neg (by simpa using fun h => hjc (by exact_mod_cast h)),
            tryBlockNext_lit compile hp a t 0]
        have hpred : ((fun x => if x.2.1 = cj then decide (co ≤ x.2.2) else true) ∘
            (fun k => (i, j, k))) = (fun _ => true) := by
          funext k
          simp [hjc]
        rw [hpred, List.filter_true, jsIndexOf_zero hp]
        cases hocc : (occs t p).head? with
        | none =>
          rw [List.head?_eq_none_iff.mp hocc]
          simpa using ih (j + 1) (by omega)
        | some k =>
          obtain ⟨ks, hks⟩ : ∃ ks, occs t p = k :: ks := by
            cases hh : occs t p with
            | nil => rw [hh] at hocc; simp at hocc
            | cons k2 ks => rw [hh] at hocc; exact ⟨ks, by simpa using hocc⟩
          rw [hks]
          exact ⟨t, rfl⟩
    | other tf =>
      simp only [posOfBlocks, List.nil_append]
      have h2 : ∀ s, tryBlockNext compile p false (.other tf) s = .miss := fun _ => rfl
      rw [h2]
      exact ih (j + 1) (by omega)
    | nullish =>
      simp only [posOfBlocks, List.nil_append]
      have h2 : ∀ s, tryBlockNext compile p false .nullish s = .miss := fun _ => rfl
      rw [h2]
      exact ih (j + 1) (by omega)

theorem sceneFilter_resume (p : Str) (ci cj co : Nat) (bs : List Block) :
    (posOfBlocks p ci bs 0).filter (nextGE (ci, cj, co)) =
      (posOfBlocks p ci (bs.drop cj) cj).filter
        (fun x => if x.2.1 = cj then decide (co ≤ x.2.2) else true) := by
  conv_lhs => rw [← List.take_append_drop cj bs]
  rw [posOfBlocks_append, List.filter_append]
  have htake : (posOfBlocks p ci (bs.take cj) 0).filter (nextGE (ci, cj, co)) = [] := by
    rw [List.filter_eq_nil_iff]
    intro x hx
    obtain ⟨hx1, _, hx3, _⟩ := mem_posOfBlocks p ci (bs.take cj) 0 x hx
    have hlen : (bs.take cj).length ≤ cj := by
      simp [List.length_take]
    simp only [nextGE, decide_eq_true_eq]
    push_neg
    omega
  by_cases hcj : cj ≤ bs.length
  · have hlen : (bs.take cj).length = cj := by
      simp [List.length_take]; omega
    rw [htake, List.nil_append, hlen, Nat.zero_add]
    apply List.filter_congr
    intro x hx
    obtain ⟨hx1, hx2, _, _⟩ := mem_posOfBlocks p ci (bs.drop cj) cj x hx
    by_cases hxc : x.2.1 = cj
    · rw [if_pos hxc, nextGE]
      dsimp only
      rw [decide_eq_decide]
      omega
    · rw [if_neg hxc, nextGE]
      dsimp only
      apply decide_eq_true
      omega
  · have hdrop : bs.drop cj = [] := List.drop_eq_nil_of_le (by omega)
    rw [htake, List.nil_append, hdrop]
    simp [posOfBlocks]

theorem sceneFilter_later (p : Str) (ci cj co : Nat) (i : Nat) (hlt : ci < i)
    (bs : List Block) :
    (posOfBlocks p i bs 0).filter (nextGE (ci, cj, co)) = posOfBlocks p i bs 0 := by
  apply List.filter_eq_self.mpr
  intro x hx
  obtain ⟨hx1, _, _, _⟩ := mem_posOfBlocks p i bs 0 x hx
  rw [nextGE]
  apply decide_eq_true
  left
  omega

theorem scanScenesNext_lit (compile : Str → Option JsRegex) {p : Str} (hp : p ≠ [])
    (ci cj co : Nat) :
    ∀ (l : List Scene) (i : Nat), ci ≤ i →
      (match ((posOfScenes p l i).filter (nextGE (ci, cj, co))).head? with
       | none => scanScenesNext compile p false ci (cj : Int) (co : Int) l i = .done
       | some x => ∃ t title,
           scanScenesNext compile p false ci (cj : Int) (co : Int) l i =
             .foundS x.1 x.2.1 x.2.2 p.length t title) := by
  intro l
  induction l with
  | nil => intro i _; exact rfl
  | cons s rest ih =>
    intro i hci
    rw [posOfScenes, scanScenesNext]
    cases hsb : sceneBlocks? s with
    | none =>
      simp only [List.nil_append]
      exact ih (i + 1) (by omega)
    | some bs =>
      dsimp only
      have hclamp : clampNat (cj : Int) = cj := Int.toNat_natCast cj
      simp only [List.filter_append, List.head?_append]
      by_cases hic : i = ci
      · rw [if_pos hic, decide_eq_true hic, hclamp, hic]
        have hb := scanBlocksNext_resume compile hp ci cj co (bs.drop cj) cj (Nat.le_refl cj)
        rw [← sceneFilter_resume p ci cj co bs] at hb
        cases hA : ((posOfBlocks p ci bs 0).filter (nextGE (ci, cj, co))).head? with
        | none =>
          rw [hA] at hb
          dsimp only at hb
          rw [hb]
          dsimp only
          have hgoal := ih (i + 1) (by omega)
          rw [hic] at hgoal
          simpa using hgoal
        | some x =>
          rw [hA] at hb
          dsimp only at hb
          obtain ⟨t, ht⟩ := hb
          rw [ht]
          dsimp only
          have hmem : x ∈ (posOfBlocks p ci bs 0).filter (nextGE (ci, cj, co)) := by
            cases hl : (posOfBlocks p ci bs 0).filter (nextGE (ci, cj, co)) with
            | nil => rw [hl] at hA; simp at hA
            | cons y ys =>
              rw [hl] at hA
              rw [List.head?_cons, Option.some_inj] at hA
              exact hA ▸ List.mem_cons_self y ys
          obtain ⟨hx1, _, _, _⟩ :=
            mem_posOfBlocks p ci bs 0 x (List.mem_of_mem_filter hmem)
          exact ⟨t, s.title, by rw [hx1]⟩
      · have hlt : ci < i := by omega
        rw [if_neg hic, decide_eq_false hic]
        have hb := scanBlocksNext_false compile hp (cj : Int) (co : Int) i bs 0
        rw [sceneFilter_later p ci cj co i hlt bs]
        cases hA : (posOfBlocks p i bs 0).head? with
        | none =>
          rw [hA] at hb
          dsimp only at hb
          rw [List.drop_zero, hb]
          dsimp only
          simpa using ih (i + 1) (by omega)
        | some x =>
          rw [hA] at hb
          dsimp only at hb
          obtain ⟨t, ht⟩ := hb
          rw [List.drop_zero, ht]
          dsimp only
          have hmem : x ∈ posOfBlocks p i bs 0 := by
            cases hl : posOfBlocks p i bs 0 with
            | nil => rw [hl] at hA; simp at hA
            | cons y ys =>
              rw [hl] at hA
              rw [List.head?_cons, Option.some_inj] at hA
              exact hA ▸ List.mem_cons_self y ys
          obtain ⟨hx1, _, _, _⟩ := mem_posOfBlocks p i bs 0 x hmem
          exact ⟨t, s.title, by rw [hx1]⟩

theorem nextGE_iff (c x : Nat × Nat × Nat) : nextGE c x = true ↔
    (c.1 < x.1 ∨ (c.1 = x.1 ∧ (c.2.1 < x.2.1 ∨ (c.2.1 = x.2.1 ∧ c.2.2 ≤ x.2.2)))) := by
  simp [nextGE]

theorem posLt_iff (x c : Nat × Nat × Nat) : posLt x c = true ↔
    (x.1 < c.1 ∨ (x.1 = c.1 ∧ (x.2.1 < c.2.1 ∨ (x.2.1 = c.2.1 ∧ x.2.2 < c.2.2)))) := by
  simp [posLt]

theorem docPositions_pairwise (p : Str) (data : BackupData) :
    (docPositions p data).Pairwise (fun x y => posLt x y = true) := by
  cases hr : data.revisions with
  | nil => simp [docPositions, hr]
  | cons rev rest =>
    simp only [docPositions, hr]
    exact posOfScenes_pairwise p rev.scenes 0

theorem findNext_lit_step (compile : Str → Option JsRegex) {p : Str} (hp : p ≠ [])
    (data : BackupData) (ci cj co : Nat) :
    (match ((docPositions p data).filter (nextGE (ci, cj, co))).head? with
     | none => findNextMatchInternal compile p false data ⟨(ci : Int), (cj : Int), (co : Int)⟩ =
         ⟨none, ⟨(ci : Int), (cj : Int), (co : Int)⟩, false⟩
     | some x => ∃ m, findNextMatchInternal compile p false data
             ⟨(ci : Int), (cj : Int), (co : Int)⟩ =
           ⟨some m, ⟨(x.1 : Int), (x.2.1 : Int), (x.2.2 : Int) + (p.length : Int)⟩, false⟩ ∧
         m.sceneIndex = x.1 ∧ m.blockIndex = x.2.1 ∧ m.matchIndex = x.2.2) := by
  cases hrevs : data.revisions with
  | nil =>
    simp only [docPositions, findNextMatchInternal, hrevs, List.filter_nil, List.head?_nil]
  | cons rev rest =>
    simp only [docPositions, findNextMatchInternal, hrevs]
    dsimp only
    rw [if_neg (by omega : ¬((ci : Int) < 0))]
    by_cases hg : (rev.scenes.length : Int) ≤ (ci : Int)
    · rw [if_pos hg]
      have hfil : (posOfScenes p rev.scenes 0).filter (nextGE (ci, cj, co)) = [] := by
        rw [List.filter_eq_nil_iff]
        intro x hx
        obtain ⟨_, hb, _⟩ := mem_posOfScenes p rev.scenes 0 x hx
        rw [nextGE]
        dsimp only
        simp only [decide_eq_true_eq]
        push_neg
        omega
      rw [hfil]
      exact rfl
    · rw [if_neg hg]
      have hclamp : clampNat (ci : Int) = ci := Int.toNat_natCast ci
      rw [hclamp]
      have hsplit : (posOfScenes p rev.scenes 0).filter (nextGE (ci, cj, co)) =
          (posOfScenes p (rev.scenes.drop ci) ci).filter (nextGE (ci, cj, co)) := by
        rw [posOfScenes_take_drop p ci rev.scenes 0, List.filter_append]
        have h0 : (posOfScenes p (rev.scenes.take ci) 0).filter (nextGE (ci, cj, co)) = [] := by
          rw [List.filter_eq_nil_iff]
          intro x hx
          obtain ⟨_, hb, _⟩ := mem_posOfScenes p (rev.scenes.take ci) 0 x hx
          have hlen : (rev.scenes.take ci).length ≤ ci := by
            simp [List.length_take]
          rw [nextGE]
          dsimp only
          simp only [decide_eq_true_eq]
          push_neg
          omega
        rw [h0, List.nil_append, Nat.zero_add]
      rw [hsplit]
      have hscan := scanScenesNext_lit compile hp ci cj co (rev.scenes.drop ci) ci
        (Nat.le_refl ci)
      cases hh : ((posOfScenes p (rev.scenes.drop ci) ci).filter
          (nextGE (ci, cj, co))).head? with
      | none =>
        rw [hh] at hscan
        dsimp only at hscan
        rw [hscan]
      | some x =>
        rw [hh] at hscan
        dsimp only at hscan
        obtain ⟨t, title, ht⟩ := hscan
        rw [ht]
        dsimp only
        rw [if_pos (List.length_pos.mpr hp)]
        exact ⟨_, rfl, rfl, rfl, rfl⟩

theorem nonOverlapping_spec {p : Str} {data : BackupData}
    (h : nonOverlapping p data = true) :
    ∀ x ∈ docPositions p data, ∀ y ∈ docPositions p data,
      x.1 = y.1 → x.2.1 = y.2.1 → x.2.2 < y.2.2 → x.2.2 + p.length ≤ y.2.2 := by
  intro x hx y hy h1 h2 h3
  cases hrevs : data.revisions with
  | nil => rw [docPositions, hrevs] at hx; simp at hx
  | cons rev rest =>
    rw [docPositions, hrevs] at hx hy
    dsimp only at hx hy
    rw [nonOverlapping, hrevs] at h
    dsimp only at h
    obtain ⟨_, _, sc, bs, hsc, hsb, hxb⟩ := mem_posOfScenes p rev.scenes 0 x hx
    obtain ⟨_, _, sc2, bs2, hsc2, hsb2, hyb⟩ := mem_posOfScenes p rev.scenes 0 y hy
    rw [← h1, hsc, Option.some_inj] at hsc2
    subst hsc2
    rw [hsb, Option.some_inj] at hsb2
    subst hsb2
    obtain ⟨_, _, _, a, t, hbt, hocc⟩ := mem_posOfBlocks p x.1 bs 0 x hxb
    obtain ⟨_, _, _, a2, t2, hbt2, hocc2⟩ := mem_posOfBlocks p y.1 bs 0 y hyb
    rw [← h2, hbt, Option.some_inj] at hbt2
    injection hbt2 with ha2 ht2
    rw [← ht2] at hocc2
    have hscmem : sc ∈ rev.scenes := List.get?_mem hsc
    have hall := List.all_eq_true.mp h sc hscmem
    cases hst : sc.text with
    | invalid =>
      rw [sceneBlocks?, hst] at hsb
      exact absurd hsb (by simp)
    | noBlocks =>
      rw [sceneBlocks?, hst] at hsb
      have hbs0 : [] = bs := Option.some_inj.mp hsb
      rw [← hbs0] at hbt
      simp at hbt
    | parsed bs3 =>
      rw [sceneBlocks?, hst] at hsb
      have hbs3 : bs3 = bs := Option.some_inj.mp hsb
      rw [hst] at hall
      dsimp only at hall
      rw [hbs3] at hall
      have hbmem : Block.textBlock a t ∈ bs := List.get?_mem hbt
      have hb := List.all_eq_true.mp hall _ hbmem
      dsimp only at hb
      have hpw := of_decide_eq_true hb
      exact pairwise_sorted_rel (occs_pairwise t p) hpw hocc hocc2 h3

theorem filter_nextGE_tail {plen : Nat} (hplen : 0 < plen) :
    ∀ {P : List (Nat × Nat × Nat)},
      P.Pairwise (fun x y => posLt x y = true) →
      (∀ x ∈ P, ∀ y ∈ P, x.1 = y.1 → x.2.1 = y.2.1 → x.2.2 < y.2.2 →
        x.2.2 + plen ≤ y.2.2) →
      ∀ {c x : Nat × Nat × Nat} {rest : List (Nat × Nat × Nat)},
        P.filter (nextGE c) = x :: rest →
        P.filter (nextGE (x.1, x.2.1, x.2.2 + plen)) = rest := by
  intro P
  induction P with
  | nil => intro _ _ c x rest h; simp at h
  | cons a P ih =>
    intro hsort hno c x rest h
    by_cases ha : nextGE c a = true
    · rw [List.filter_cons_of_pos ha] at h
      injection h with h1 h2
      subst h1
      have hga : nextGE (a.1, a.2.1, a.2.2 + plen) a = false := by
        rw [nextGE]
        dsimp only
        apply decide_eq_false
        omega
      rw [List.filter_cons_of_neg (by simp [hga])]
      rw [← h2]
      apply List.filter_congr
      intro y hy
      have hlt := List.rel_of_pairwise_cons hsort hy
      have hno2 := hno a (List.mem_cons_self a P) y (List.mem_cons_of_mem a hy)
      rw [posLt] at hlt
      have hltP := of_decide_eq_true hlt
      rw [nextGE] at ha
      have haP := of_decide_eq_true ha
      rw [nextGE, nextGE, decide_eq_decide]
      dsimp only
      omega
    · rw [List.filter_cons_of_neg (by simp [ha])] at h
      have hxP : x ∈ P := by
        have hmem : x ∈ List.filter (nextGE c) P := by
          rw [h]
          exact List.mem_cons_self x rest
        exact List.mem_of_mem_filter hmem
      have hga : nextGE (x.1, x.2.1, x.2.2 + plen) a = false := by
        have hax := List.rel_of_pairwise_cons hsort hxP
        rw [posLt] at hax
        have haxP := of_decide_eq_true hax
        rw [nextGE]
        dsimp only
        apply decide_eq_false
        omega
      rw [List.filter_cons_of_neg (by simp [hga])]
      exact ih hsort.of_cons
        (fun u hu v hv => hno u (List.mem_cons_of_mem a hu) v (List.mem_cons_of_mem a hv)) h

theorem collectNext_go (compile : Str → Option JsRegex) {p : Str} (hp : p ≠ [])
    (data : BackupData)
    (hno : ∀ x ∈ docPositions p data, ∀ y ∈ docPositions p data,
      x.1 = y.1 → x.2.1 = y.2.1 → x.2.2 < y.2.2 → x.2.2 + p.length ≤ y.2.2) :
    ∀ (fuel : Nat) (ci cj co : Nat),
      ((docPositions p data).filter (nextGE (ci, cj, co))).length < fuel →
      collectNextPositions compile p false data ⟨(ci : Int), (cj : Int), (co : Int)⟩ fuel =
        (docPositions p data).filter (nextGE (ci, cj, co)) := by
  intro fuel
  induction fuel with
  | zero => intro ci cj co h; exact absurd h (Nat.not_lt_zero _)
  | succ fuel ih =>
    intro ci cj co hfuel
    rw [collectNextPositions]
    have hstep := findNext_lit_step compile hp data ci cj co
    cases hh : ((docPositions p data).filter (nextGE (ci, cj, co))).head? with
    | none =>
      rw [hh] at hstep
      dsimp only at hstep
      rw [hstep]
      dsimp only
      exact (List.head?_eq_none_iff.mp hh).symm
    | some x =>
      rw [hh] at hstep
      dsimp only at hstep
      obtain ⟨m, hm, h1, h2, h3⟩ := hstep
      rw [hm]
      dsimp only
      obtain ⟨rest, hrest⟩ : ∃ rest,
          (docPositions p data).filter (nextGE (ci, cj, co)) = x :: rest := by
        cases hl : (docPositions p data).filter (nextGE (ci, cj, co)) with
        | nil => rw [hl] at hh; simp at hh
        | cons y ys =>
          rw [hl] at hh
          rw [List.head?_cons, Option.some_inj] at hh
          exact ⟨ys, by rw [hh]⟩
      have htail := filter_nextGE_tail (List.length_pos.mpr hp)
        (docPositions_pairwise p data) hno hrest
      have hcast : ((x.2.2 + p.length : Nat) : Int) = (x.2.2 : Int) + (p.length : Int) := by
        push_cast
        ring
      have hih := ih x.1 x.2.1 (x.2.2 + p.length)
        (by rw [htail]; rw [hrest] at hfuel; simp only [List.length_cons] at hfuel; omega)
      rw [hcast] at hih
      rw [h1, h2, h3, hih, htail, hrest]

theorem litMatchesBelowGo_spec {t p : Str} (hp : p ≠ []) (se : Int) :
    ∀ (fuel from_ : Nat), t.length < from_ + fuel →
      litMatchesBelowGo t p se from_ fuel =
        ((occs t p).filter
            (fun k => decide (from_ ≤ k) && decide ((k : Int) < se))).map
          (fun k => (k, p.length)) := by
  intro fuel
  induction fuel with
  | zero =>
    intro from_ hfrom
    rw [litMatchesBelowGo]
    have hfil : (occs t p).filter
        (fun k => decide (from_ ≤ k) && decide ((k : Int) < se)) = [] := by
      rw [List.filter_eq_nil_iff]
      intro k hk
      obtain ⟨hk1, _⟩ := mem_occs.mp hk
      simp only [Bool.and_eq_true, decide_eq_true_eq, not_and]
      intro hc
      omega
    rw [hfil]
    rfl
  | succ fuel ih =>
    intro from_ hfrom
    rw [litMatchesBelowGo]
    cases hio : jsIndexOf t p from_ with
    | none =>
      dsimp only
      have hnone := jsIndexOf_none hp hio
      have hfil : (occs t p).filter
          (fun k => decide (from_ ≤ k) && decide ((k : Int) < se)) = [] := by
        rw [List.filter_eq_nil_iff]
        intro k hk
        have := hnone k hk
        simp only [Bool.and_eq_true, decide_eq_true_eq, not_and]
        intro hc
        omega
      rw [hfil]
      rfl
    | some idx =>
      dsimp only
      obtain ⟨hge, hmem, hmin⟩ := jsIndexOf_some hp hio
      have hfind : (occs t p).find? (fun k => decide (from_ ≤ k)) = some idx := by
        rw [jsIndexOf, if_neg hp] at hio
        exact hio
      have hsplit := split_min (occs_pairwise t p) hfind
      have hcomb : (occs t p).filter
          (fun k => decide (from_ ≤ k) && decide ((k : Int) < se)) =
          ((occs t p).filter (fun k => decide (from_ ≤ k))).filter
            (fun (k : Nat) => decide ((k : Int) < se)) := by
        rw [List.filter_filter]
        apply List.filter_congr
        intro k _
        rw [Bool.and_comm]
      by_cases hse : (idx : Int) < se
      · rw [if_pos hse, hcomb, hsplit, List.filter_cons_of_pos (by simpa using hse)]
        have hcomb2 : ((occs t p).filter (fun k => decide (idx + 1 ≤ k))).filter
            (fun (k : Nat) => decide ((k : Int) < se)) =
            (occs t p).filter
              (fun k => decide (idx + 1 ≤ k) && decide ((k : Int) < se)) := by
          rw [List.filter_filter]
          apply List.filter_congr
          intro k _
          rw [Bool.and_comm]
        rw [hcomb2, ih (idx + 1) (by omega)]
        rfl
      · rw [if_neg hse]
        have hfil : (occs t p).filter
            (fun k => decide (from_ ≤ k) && decide ((k : Int) < se)) = [] := by
          rw [List.filter_eq_nil_iff]
          intro k hk
          simp only [Bool.and_eq_true, decide_eq_true_eq, not_and]
          intro hc
          have hik := hmin k hk hc
          have : (idx : Int) ≤ (k : Int) := by exact_mod_cast hik
          omega
        rw [hfil]
        rfl

theorem litMatchesBelow_spec {t p : Str} (hp : p ≠ []) (se : Int) :
    litMatchesBelow t p se =
      ((occs t p).filter (fun (k : Nat) => decide ((k : Int) < se))).map
        (fun k => (k, p.length)) := by
  rw [litMatchesBelow, litMatchesBelowGo_spec hp se (t.length + 1) 0 (by omega)]
  congr 1
  apply List.filter_congr
  intro k _
  simp

theorem occs_filter_lt_len {t p : Str} (hp : p ≠ []) :
    (occs t p).filter (fun (k : Nat) => decide ((k : Int) < (t.length : Int))) = occs t p := by
  apply List.filter_eq_self.mpr
  intro k hk
  obtain ⟨_, hm⟩ := mem_occs.mp hk
  have := matchAt_le hp hm
  have hple : 0 < p.length := List.length_pos.mpr hp
  simp only [decide_eq_true_eq]
  exact_mod_cast (by omega : k < t.length)

theorem tryBlockPrev_lit (compile : Str → Option JsRegex) {p : Str} (hp : p ≠ [])
    (a : String) (t : Str) (rh : Bool) (ro : Int) :
    tryBlockPrev compile p false (.textBlock a t) rh ro =
      (match ((occs t p).filter
          (fun (k : Nat) => decide ((k : Int) < (if rh then ro else (t.length : Int))))).getLast? with
       | some idx => .foundB 0 idx p.length t
       | none => .miss) := by
  rw [tryBlockPrev]
  by_cases hg : (if rh = true then ro else (t.length : Int)) ≤ 0 ∧ 0 < t.length
  · rw [if_pos ?hc]
    case hc =>
      cases rh <;> simpa using hg
    have hfil : (occs t p).filter
        (fun (k : Nat) => decide ((k : Int) < (if rh then ro else (t.length : Int)))) = [] := by
      rw [List.filter_eq_nil_iff]
      intro k hk
      simp only [decide_eq_true_eq]
      cases rh with
      | false =>
        simp only [if_false, Bool.false_eq_true] at hg ⊢
        omega
      | true =>
        simp only [if_true] at hg ⊢
        have hk0 : (0 : Int) ≤ (k : Int) := by positivity
        omega
    rw [hfil]
    rfl
  · rw [if_neg ?hc2]
    case hc2 =>
      cases rh <;> simpa using hg
    rw [if_neg (by simp [hp])]
    simp only [Bool.false_eq_true, if_false]
    rw [litMatchesBelow_spec hp]
    rw [List.getLast?_map]
    cases hlast : ((occs t p).filter
        (fun (k : Nat) => decide ((k : Int) < (if rh then ro else (t.length : Int))))).getLast? with
    | none => rfl
    | some k => rfl

theorem blockAtPrev_lit (compile : Str → Option JsRegex) {p : Str} (hp : p ≠ [])
    (resume : Bool) (rb ro : Int) (bs : List Block) (j : Nat) :
    blockAtPrev compile p false resume rb ro bs j =
      (match bs.get? j with
       | some (.textBlock a t) =>
         (match ((occs t p).filter (fun (k : Nat) =>
             decide ((k : Int) < (if decide (resume = true ∧ (j : Int) = rb) then ro
               else (t.length : Int))))).getLast? with
          | some idx => .foundB j idx p.length t
          | none => .miss)
       | _ => .miss) := by
  rw [blockAtPrev]
  cases hbj : bs.get? j with
  | none => rfl
  | some b =>
    dsimp only
    cases b with
    | textBlock a t =>
      dsimp only
      rw [tryBlockPrev_lit compile hp]
      cases hlast : ((occs t p).filter (fun (k : Nat) =>
          decide ((k : Int) < (if decide (resume = true ∧ (j : Int) = rb) then ro
            else (t.length : Int))))).getLast? with
      | none => rfl
      | some k => rfl
    | other tf => rfl
    | nullish => rfl

theorem posOfBlocks_take_succ (p : Str) (i : Nat) (bs : List Block) (j : Nat) :
    posOfBlocks p i (bs.take (j+1)) 0 =
      posOfBlocks p i (bs.take j) 0 ++
        (match bs.get? j with
         | some (.textBlock a t) => (occs t p).map (fun k => (i, j, k))
         | _ => []) := by
  cases hbj : bs.get? j with
  | none =>
    have hlen : bs.length ≤ j := List.get?_eq_none.mp hbj
    rw [List.take_of_length_le (by omega), List.take_of_length_le (by omega)]
    simp
  | some b =>
    have hlt : j < bs.length := (List.get?_eq_some.mp hbj).1
    rw [List.take_succ, ← List.get?_eq_getElem?, hbj, posOfBlocks_append]
    have hlen : (bs.take j).length = j := by
      simp [List.length_take]
      omega
    rw [hlen, Nat.zero_add]
    cases b with
    | textBlock a t => simp [posOfBlocks]
    | other tf => simp [posOfBlocks]
    | nullish => simp [posOfBlocks]

theorem scanBlocksPrev_nores (compile : Str → Option JsRegex) {p : Str} (hp : p ≠ [])
    (resume : Bool) (rb ro : Int) (i : Nat) (bs : List Block) :
    ∀ j : Nat, (∀ j2, j2 ≤ j → ¬(resume = true ∧ (j2 : Int) = rb)) →
      (match (posOfBlocks p i (bs.take (j+1)) 0).getLast? with
       | none => scanBlocksPrev compile p false resume rb ro bs j = .miss
       | some x => ∃ t, scanBlocksPrev compile p false resume rb ro bs j =
           .foundB x.2.1 x.2.2 p.length t) := by
  intro j
  induction j with
  | zero =>
    intro h
    rw [scanBlocksPrev, blockAtPrev_lit compile hp,
        decide_eq_false (h 0 (Nat.le_refl 0)), posOfBlocks_take_succ]
    simp only [Bool.false_eq_true, if_false, List.take_zero, posOfBlocks, List.nil_append]
    cases hbj : bs.get? 0 with
    | none => exact rfl
    | some b =>
      cases b with
      | textBlock a t =>
        dsimp only
        rw [occs_filter_lt_len hp]
        cases hocc : (occs t p).getLast? with
        | none =>
          have hnil : occs t p = [] := by
            cases hl : occs t p with
            | nil => rfl
            | cons k ks => rw [hl] at hocc; simp at hocc
          rw [hnil]
          exact rfl
        | some k =>
          rw [List.getLast?_map, hocc]
          exact ⟨t, rfl⟩
      | other tf => exact rfl
      | nullish => exact rfl
  | succ j ih =>
    intro h
    rw [scanBlocksPrev, blockAtPrev_lit compile hp,
        decide_eq_false (h (j+1) (Nat.le_refl _)), posOfBlocks_take_succ]
    simp only [Bool.false_eq_true, if_false]
    cases hbj : bs.get? (j+1) with
    | none =>
      dsimp only
      rw [List.append_nil]
      exact ih (fun j2 hj2 => h j2 (by omega))
    | some b =>
      cases b with
      | textBlock a t =>
        dsimp only
        rw [occs_filter_lt_len hp]
        cases hocc : (occs t p).getLast? with
        | none =>
          have hnil : occs t p = [] := by
            cases hl : occs t p with
            | nil => rfl
            | cons k ks => rw [hl] at hocc; simp at hocc
          rw [hnil, List.map_nil, List.append_nil]
          exact ih (fun j2 hj2 => h j2 (by omega))
        | some k =>
          rw [List.getLast?_append, List.getLast?_map, hocc]
          exact ⟨t, rfl⟩
      | other tf =>
        dsimp only
        rw [List.append_nil]
        exact ih (fun j2 hj2 => h j2 (by omega))
      | nullish =>
        dsimp only
        rw [List.append_nil]
        exact ih (fun j2 hj2 => h j2 (by omega))

theorem occs_filter_cast (t p : Str) (co : Nat) :
    (occs t p).filter (fun (k : Nat) => decide ((k : Int) < (co : Int))) =
      (occs t p).filter (fun k => decide (k < co)) := by
  apply List.filter_congr
  intro k _
  rw [decide_eq_decide]
  exact Nat.cast_lt

theorem blockAtPrev_res_hit (compile : Str → Option JsRegex) {p : Str} (hp : p ≠ [])
    (cj co : Nat) (bs : List Block) :
    blockAtPrev compile p false true (cj : Int) (co : Int) bs cj =
      (match bs.get? cj with
       | some (.textBlock a t) =>
         (match ((occs t p).filter (fun k => decide (k < co))).getLast? with
          | some idx => .foundB cj idx p.length t
          | none => .miss)
       | _ => .miss) := by
  rw [blockAtPrev_lit compile hp]
  cases hbj : bs.get? cj with
  | none => rfl
  | some b =>
    cases b with
    | textBlock a t =>
      dsimp only
      have hd : decide (true = true ∧ ((cj : Nat) : Int) = ((cj : Nat) : Int)) = true :=
        decide_eq_true ⟨rfl, rfl⟩
      rw [hd, if_pos rfl, occs_filter_cast]
    | other tf => rfl
    | nullish => rfl

theorem blockAtPrev_res_miss (compile : Str → Option JsRegex) {p : Str} (hp : p ≠ [])
    (cj co : Nat) (bs : List Block) (j : Nat) (hj : ¬(j = cj)) :
    blockAtPrev compile p false true (cj : Int) (co : Int) bs j =
      (match bs.get? j with
       | some (.textBlock a t) =>
         (match (occs t p).getLast? with
          | some idx => .foundB j idx p.length t
          | none => .miss)
       | _ => .miss) := by
  rw [blockAtPrev_lit compile hp]
  cases hbj : bs.get? j with
  | none => rfl
  | some b =>
    cases b with
    | textBlock a t =>
      dsimp only
      have hd : decide (true = true ∧ ((j : Nat) : Int) = ((cj : Nat) : Int)) = false :=
        decide_eq_false (fun hc => hj (by exact_mod_cast hc.2))
      rw [hd]
      simp only [Bool.false_eq_true, if_false]
      rw [occs_filter_lt_len hp]
    | other tf => rfl
    | nullish => rfl

theorem mapPos_filter_hit (t p : Str) (i cj co : Nat) :
    ((occs t p).map (fun k => (i, cj, k))).filter
        (fun x => if x.2.1 = cj then decide (x.2.2 < co) else true) =
      ((occs t p).filter (fun k => decide (k < co))).map (fun k => (i, cj, k)) := by
  rw [List.filter_map]
  congr 1
  apply List.filter_congr
  intro k _
  simp [Function.comp]

theorem mapPos_filter_miss (t p : Str) (i j cj co : Nat) (hj : ¬(j = cj)) :
    ((occs t p).map (fun k => (i, j, k))).filter
        (fun x => if x.2.1 = cj then decide (x.2.2 < co) else true) =
      (occs t p).map (fun k => (i, j, k)) := by
  rw [List.filter_map]
  rw [show ((fun (x : Nat × Nat × Nat) =>
        if x.2.1 = cj then decide (x.2.2 < co) else true) ∘ (fun k => (i, j, k))) =
      (fun _ => true) from funext fun k => by simp [Function.comp, hj]]
  rw [List.filter_true]

theorem scanBlocksPrev_res (compile : Str → Option JsRegex) {p : Str} (hp : p ≠ [])
    (i cj co : Nat) (bs : List Block) :
    ∀ j : Nat,
      (match ((posOfBlocks p i (bs.take (j+1)) 0).filter
          (fun x => if x.2.1 = cj then decide (x.2.2 < co) else true)).getLast? with
       | none => scanBlocksPrev compile p false true (cj : Int) (co : Int) bs j = .miss
       | some x => ∃ t, scanBlocksPrev compile p false true (cj : Int) (co : Int) bs j =
           .foundB x.2.1 x.2.2 p.length t) := by
  intro j
  induction j with
  | zero =>
    rw [scanBlocksPrev, posOfBlocks_take_succ]
    simp only [List.take_zero, posOfBlocks, List.nil_append]
    by_cases hjc : (0 : Nat) = cj
    · subst hjc
      rw [blockAtPrev_res_hit compile hp]
      cases hbj : bs.get? 0 with
      | none => exact rfl
      | some b =>
        cases b with
        | textBlock a t =>
          dsimp only
          rw [mapPos_filter_hit, List.getLast?_map]
          cases hocc : ((occs t p).filter (fun k => decide (k < co))).getLast? with
          | none => exact rfl
          | some k => exact ⟨t, rfl⟩
        | other tf => exact rfl
        | nullish => exact rfl
    · rw [blockAtPrev_res_miss compile hp cj co bs 0 hjc]
      cases hbj : bs.get? 0 with
      | none => exact rfl
      | some b =>
        cases b with
        | textBlock a t =>
          dsimp only
          rw [mapPos_filter_miss t p i 0 cj co hjc, List.getLast?_map]
          cases hocc : (occs t p).getLast? with
          | none => exact rfl
          | some k => exact ⟨t, rfl⟩
        | other tf => exact rfl
        | nullish => exact rfl
  | succ j ih =>
    rw [scanBlocksPrev, posOfBlocks_take_succ, List.filter_append]
    by_cases hjc : j + 1 = cj
    · subst hjc
      rw [blockAtPrev_res_hit compile hp]
      cases hbj : bs.get? (j+1) with
      | none =>
        dsimp only
        rw [List.filter_nil, List.append_nil]
        exact ih
      | some b =>
        cases b with
        | textBlock a t =>
          dsimp only
          rw [mapPos_filter_hit, List.getLast?_append, List.getLast?_map]
          cases hocc : ((occs t p).filter (fun k => decide (k < co))).getLast? with
          | none => exact ih
          | some k => exact ⟨t, rfl⟩
        | other tf =>
          dsimp only
          rw [List.filter_nil, List.append_nil]
          exact ih
        | nullish =>
          dsimp only
          rw [List.filter_nil, List.append_nil]
          exact ih
    · rw [blockAtPrev_res_miss compile hp cj co bs (j+1) hjc]
      cases hbj : bs.get? (j+1) with
      | none =>
        dsimp only
        rw [List.filter_nil, List.append_nil]
        exact ih
      | some b =>
        cases b with
        | textBlock a t =>
          dsimp only
          rw [mapPos_filter_miss t p i (j+1) cj co hjc, List.getLast?_append,
              List.getLast?_map]
          cases hocc : (occs t p).getLast? with
          | none => exact ih
          | some k => exact ⟨t, rfl⟩
        | other tf =>
          dsimp only
          rw [List.filter_nil, List.append_nil]
          exact ih
        | nullish =>
          dsimp only
          rw [List.filter_nil, List.append_nil]
          exact ih

theorem sceneFilter_prev (p : Str) (ci cj co : Nat) (bs : List Block) :
    (posOfBlocks p ci bs 0).filter (fun x => posLt x (ci, cj, co)) =
      (posOfBlocks p ci (bs.take (cj+1)) 0).filter
        (fun x => if x.2.1 = cj then decide (x.2.2 < co) else true) := by
  by_cases hcj : cj + 1 ≤ bs.length
  · conv_lhs => rw [← List.take_append_drop (cj+1) bs]
    rw [posOfBlocks_append, List.filter_append]
    have hlen : (bs.take (cj+1)).length = cj + 1 := by
      simp [List.length_take]
      omega
    have hdropnil : (posOfBlocks p ci (bs.drop (cj+1)) (0 + (bs.take (cj+1)).length)).filter
        (fun x => posLt x (ci, cj, co)) = [] := by
      rw [List.filter_eq_nil_iff]
      intro x hx
      obtain ⟨hx1, hx2, _, _⟩ :=
        mem_posOfBlocks p ci (bs.drop (cj+1)) (0 + (bs.take (cj+1)).length) x hx
      rw [hlen] at hx2
      rw [posLt]
      dsimp only
      simp only [decide_eq_true_eq]
      push_neg
      omega
    rw [hdropnil, List.append_nil]
    apply List.filter_congr
    intro x hx
    obtain ⟨hx1, _, hx3, _⟩ := mem_posOfBlocks p ci (bs.take (cj+1)) 0 x hx
    rw [hlen] at hx3
    by_cases hxc : x.2.1 = cj
    · rw [if_pos hxc, posLt]
      dsimp only
      rw [decide_eq_decide]
      omega
    · rw [if_neg hxc, posLt]
      dsimp only
      apply decide_eq_true
      right
      exact ⟨hx1, Or.inl (by omega)⟩
  · rw [List.take_of_length_le (by omega)]
    apply List.filter_congr
    intro x hx
    obtain ⟨hx1, _, hx3, _⟩ := mem_posOfBlocks p ci bs 0 x hx
    rw [if_neg (by omega), posLt]
    dsimp only
    apply decide_eq_true
    right
    exact ⟨hx1, Or.inl (by omega)⟩

theorem sceneFilter_prev_later (p : Str) (ci cj co : Nat) (i : Nat) (hlt : i < ci)
    (bs : List Block) :
    (posOfBlocks p i bs 0).filter (fun x => posLt x (ci, cj, co)) =
      posOfBlocks p i bs 0 := by
  apply List.filter_eq_self.mpr
  intro x hx
  obtain ⟨hx1, _, _, _⟩ := mem_posOfBlocks p i bs 0 x hx
  rw [posLt]
  dsimp only
  apply decide_eq_true
  left
  omega

theorem posOfScenes_append (p : Str) :
    ∀ (A B : List Scene) (i : Nat),
      posOfScenes p (A ++ B) i = posOfScenes p A i ++ posOfScenes p B (i + A.length) := by
  intro A
  induction A with
  | nil => intro B i; simp [posOfScenes]
  | cons s rest ih =>
    intro B i
    rw [List.cons_append, posOfScenes, posOfScenes, ih B (i+1), List.append_assoc,
        List.length_cons, show i + 1 + rest.length = i + (rest.length + 1) from by omega]

theorem getLast?_mem_list {α : Type} {l : List α} {a : α} (h : l.getLast? = some a) :
    a ∈ l := by
  have hne : l ≠ [] := by
    intro he
    rw [he] at h
    simp at h
  rw [List.getLast?_eq_getLast _ hne, Option.some_inj] at h
  rw [← h]
  exact List.getLast_mem hne

theorem sceneAtPrev_lit (compile : Str → Option JsRegex) {p : Str} (hp : p ≠ [])
    (scenes : List Scene) (ci cj co : Nat) (i : Nat) (hi : i ≤ ci) :
    (match ((scenePos p scenes i).filter
            (fun x => posLt x (ci, cj, co))).getLast? with
     | none => sceneAtPrev compile p false scenes ci (cj : Int) (co : Int) i = .done
     | some x => ∃ t title, sceneAtPrev compile p false scenes ci (cj : Int) (co : Int) i =
         .foundS x.1 x.2.1 x.2.2 p.length t title) := by
  rw [sceneAtPrev, scenePos]
  cases hsc : scenes.get? i with
  | none => exact rfl
  | some s =>
    dsimp only
    cases hsb : sceneBlocks? s with
    | none => exact rfl
    | some bs =>
      dsimp only
      by_cases hic : i = ci
      · subst hic
        rw [if_pos rfl, decide_eq_true (Eq.refl i)]
        by_cases hcj : cj < bs.length
        · have hmin : (cj : Int) ⊓ ((bs.length : Int) - 1) = (cj : Int) :=
            min_eq_left (by omega)
          have hclamp : clampNat ((cj : Nat) : Int) = cj := Int.toNat_natCast cj
          rw [hmin, if_neg (by omega), hclamp]
          have hb := scanBlocksPrev_res compile hp i cj co bs cj
          rw [← sceneFilter_prev p i cj co bs] at hb
          cases hA : ((posOfBlocks p i bs 0).filter
              (fun x => posLt x (i, cj, co))).getLast? with
          | none =>
            rw [hA] at hb
            dsimp only at hb
            rw [hb]
          | some x =>
            rw [hA] at hb
            dsimp only at hb
            obtain ⟨t, ht⟩ := hb
            rw [ht]
            dsimp only
            have hmem := getLast?_mem_list hA
            obtain ⟨hx1, _, _, _⟩ :=
              mem_posOfBlocks p i bs 0 x (List.mem_of_mem_filter hmem)
            exact ⟨t, s.title, by rw [hx1]⟩
        · by_cases hbs0 : bs.length = 0
          · obtain rfl : bs = [] := List.length_eq_zero.mp hbs0
            rw [if_pos (by omega)]
            exact rfl
          · have hmin : (cj : Int) ⊓ ((bs.length : Int) - 1) = (bs.length : Int) - 1 :=
              min_eq_right (by omega)
            rw [hmin, if_neg (by omega)]
            have hcl : clampNat ((bs.length : Int) - 1) = bs.length - 1 := by
              rw [clampNat]
              omega
            rw [hcl]
            have hb := scanBlocksPrev_nores compile hp true (cj : Int) (co : Int) i bs
              (bs.length - 1)
              (fun j2 hj2 hc => by
                have : j2 = cj := by exact_mod_cast hc.2
                omega)
            rw [show bs.length - 1 + 1 = bs.length from by omega, List.take_length] at hb
            have hfil : (posOfBlocks p i bs 0).filter
                (fun x => posLt x (i, cj, co)) = posOfBlocks p i bs 0 := by
              apply List.filter_eq_self.mpr
              intro x hx
              obtain ⟨hx1, _, hx3, _⟩ := mem_posOfBlocks p i bs 0 x hx
              rw [posLt]
              dsimp only
              apply decide_eq_true
              right
              exact ⟨hx1, Or.inl (by omega)⟩
            rw [hfil]
            cases hA : (posOfBlocks p i bs 0).getLast? with
            | none =>
              rw [hA] at hb
              dsimp only at hb
              rw [hb]
            | some x =>
              rw [hA] at hb
              dsimp only at hb
              obtain ⟨t, ht⟩ := hb
              rw [ht]
              dsimp only
              have hmem := getLast?_mem_list hA
              obtain ⟨hx1, _, _, _⟩ := mem_posOfBlocks p i bs 0 x hmem
              exact ⟨t, s.title, by rw [hx1]⟩
      · have hlt : i < ci := by omega
        rw [if_neg hic, decide_eq_false hic]
        by_cases hbs0 : bs.length = 0
        · obtain rfl : bs = [] := List.length_eq_zero.mp hbs0
          rw [if_pos (by omega)]
          exact rfl
        · rw [if_neg (by omega)]
          have hcl : clampNat ((bs.length : Int) - 1) = bs.length - 1 := by
            rw [clampNat]
            omega
          rw [hcl]
          have hb := scanBlocksPrev_nores compile hp false (cj : Int) (co : Int) i bs
            (bs.length - 1)
            (fun j2 hj2 hc => by simp at hc)
          rw [show bs.length - 1 + 1 = bs.length from by omega, List.take_length] at hb
          rw [sceneFilter_prev_later p ci cj co i hlt bs]
          cases hA : (posOfBlocks p i bs 0).getLast? with
          | none =>
            rw [hA] at hb
            dsimp only at hb
            rw [hb]
          | some x =>
            rw [hA] at hb
            dsimp only at hb
            obtain ⟨t, ht⟩ := hb
            rw [ht]
            dsimp only
            have hmem := getLast?_mem_list hA
            obtain ⟨hx1, _, _, _⟩ := mem_posOfBlocks p i bs 0 x hmem
            exact ⟨t, s.title, by rw [hx1]⟩

theorem posOfScenes_take_succ (p : Str) (scenes : List Scene) (n : Nat) :
    posOfScenes p (scenes.take (n+1)) 0 =
      posOfScenes p (scenes.take n) 0 ++ scenePos p scenes n := by
  cases hgs : scenes.get? n with
  | none =>
    have hlen : scenes.length ≤ n := List.get?_eq_none.mp hgs
    rw [List.take_of_length_le (by omega), List.take_of_length_le (by omega),
        scenePos, hgs]
    simp
  | some s =>
    have hlt : n < scenes.length := (List.get?_eq_some.mp hgs).1
    rw [List.take_succ, ← List.get?_eq_getElem?, hgs, posOfScenes_append]
    have hlen : (scenes.take n).length = n := by
      simp [List.length_take]
      omega
    rw [hlen, Nat.zero_add, scenePos, hgs]
    dsimp only
    cases hsb : sceneBlocks? s with
    | none => simp [posOfScenes, hsb]
    | some bs => simp [posOfScenes, hsb]

theorem scanScenesPrev_lit (compile : Str → Option JsRegex) {p : Str} (hp : p ≠ [])
    (scenes : List Scene) (ci cj co : Nat) :
    ∀ i : Nat, i ≤ ci →
      (match ((posOfScenes p (scenes.take (i+1)) 0).filter
          (fun x => posLt x (ci, cj, co))).getLast? with
       | none => scanScenesPrev compile p false scenes ci (cj : Int) (co : Int) i = .done
       | some x => ∃ t title,
           scanScenesPrev compile p false scenes ci (cj : Int) (co : Int) i =
             .foundS x.1 x.2.1 x.2.2 p.length t title) := by
  intro i
  induction i with
  | zero =>
    intro h
    rw [scanScenesPrev, posOfScenes_take_succ]
    simp only [List.take_zero, posOfScenes, List.nil_append]
    exact sceneAtPrev_lit compile hp scenes ci cj co 0 h
  | succ i ih =>
    intro h
    rw [scanScenesPrev, posOfScenes_take_succ, List.filter_append]
    have hb := sceneAtPrev_lit compile hp scenes ci cj co (i+1) h
    cases hA : ((scenePos p scenes (i+1)).filter
        (fun x => posLt x (ci, cj, co))).getLast? with
    | none =>
      rw [hA] at hb
      dsimp only at hb
      rw [hb]
      dsimp only
      rw [List.getLast?_append, hA]
      dsimp only [Option.or]
      exact ih (by omega)
    | some x =>
      rw [hA] at hb
      dsimp only at hb
      obtain ⟨t, title, ht⟩ := hb
      rw [ht]
      dsimp only
      rw [List.getLast?_append, hA]
      dsimp only [Option.or]
      exact ⟨t, title, rfl⟩

theorem docBounded_spec {p : Str} {data : BackupData} (h : docBounded data = true) :
    ∀ x ∈ docPositions p data, x.2.1 < 9007199254740991 := by
  intro x hx
  cases hrevs : data.revisions with
  | nil => rw [docPositions, hrevs] at hx; simp at hx
  | cons rev rest =>
    rw [docPositions, hrevs] at hx
    dsimp only at hx
    rw [docBounded, hrevs] at h
    dsimp only at h
    obtain ⟨_, _, sc, bs, hsc, hsb, hxb⟩ := mem_posOfScenes p rev.scenes 0 x hx
    obtain ⟨_, _, hx3, _⟩ := mem_posOfBlocks p x.1 bs 0 x hxb
    have hscmem : sc ∈ rev.scenes := List.get?_mem hsc
    have hall := List.all_eq_true.mp h sc hscmem
    cases hst : sc.text with
    | invalid =>
      rw [sceneBlocks?, hst] at hsb
      exact absurd hsb (by simp)
    | noBlocks =>
      rw [sceneBlocks?, hst] at hsb
      have hbs0 : [] = bs := Option.some_inj.mp hsb
      rw [← hbs0] at hx3
      simp at hx3
    | parsed bs3 =>
      rw [sceneBlocks?, hst] at hsb
      have hbs3 : bs3 = bs := Option.some_inj.mp hsb
      rw [hst] at hall
      dsimp only at hall
      rw [hbs3] at hall
      have hle := of_decide_eq_true hall
      have hmax : jsMaxSafeInteger = ((9007199254740991 : Nat) : Int) := by
        norm_num [jsMaxSafeInteger]
      rw [hmax] at hle
      have hleN : bs.length ≤ 9007199254740991 := by exact_mod_cast hle
      omega

theorem findPrev_lit_step (compile : Str → Option JsRegex) {p : Str} (hp : p ≠ [])
    (data : BackupData) (ci cj co : Nat) (hci : ci < sceneCount data) :
    (match ((docPositions p data).filter (fun x => posLt x (ci, cj, co))).getLast? with
     | none => findPreviousMatchInternal compile p false data
           ⟨(ci : Int), (cj : Int), (co : Int)⟩ =
         ⟨none, ⟨(ci : Int), (cj : Int), (co : Int)⟩, false⟩
     | some x => ∃ m, findPreviousMatchInternal compile p false data
             ⟨(ci : Int), (cj : Int), (co : Int)⟩ =
           ⟨some m, ⟨(x.1 : Int), (x.2.1 : Int), (x.2.2 : Int)⟩, false⟩ ∧
         m.sceneIndex = x.1 ∧ m.blockIndex = x.2.1 ∧ m.matchIndex = x.2.2) := by
  cases hrevs : data.revisions with
  | nil =>
    rw [sceneCount, hrevs] at hci
    exact absurd hci (Nat.not_lt_zero ci)
  | cons rev rest =>
    rw [sceneCount, hrevs] at hci
    dsimp only at hci
    simp only [docPositions, findPreviousMatchInternal, hrevs]
    dsimp only
    rw [if_neg (by omega : ¬((rev.scenes.length : Int) ≤ (ci : Int))),
        if_neg (by omega : ¬((ci : Int) < 0))]
    have hclamp : clampNat ((ci : Nat) : Int) = ci := Int.toNat_natCast ci
    rw [hclamp]
    have hb := scanScenesPrev_lit compile hp rev.scenes ci cj co ci (Nat.le_refl ci)
    have hsplit : (posOfScenes p rev.scenes 0).filter (fun x => posLt x (ci, cj, co)) =
        (posOfScenes p (rev.scenes.take (ci+1)) 0).filter
          (fun x => posLt x (ci, cj, co)) := by
      rw [posOfScenes_take_drop p (ci+1) rev.scenes 0, List.filter_append]
      have h0 : (posOfScenes p (rev.scenes.drop (ci+1)) (0 + (ci+1))).filter
          (fun x => posLt x (ci, cj, co)) = [] := by
        rw [List.filter_eq_nil_iff]
        intro x hx
        obtain ⟨hxi, _, _⟩ := mem_posOfScenes p (rev.scenes.drop (ci+1)) (0 + (ci+1)) x hx
        rw [posLt]
        dsimp only
        simp only [decide_eq_true_eq]
        push_neg
        omega
      rw [h0, List.append_nil]
    rw [hsplit]
    cases hh : ((posOfScenes p (rev.scenes.take (ci+1)) 0).filter
        (fun x => posLt x (ci, cj, co))).getLast? with
    | none =>
      rw [hh] at hb
      dsimp only at hb
      rw [hb]
    | some x =>
      rw [hh] at hb
      dsimp only at hb
      obtain ⟨t, title, ht⟩ := hb
      rw [ht]
      dsimp only
      exact ⟨_, rfl, rfl, rfl, rfl⟩

theorem findPrev_default_step (compile : Str → Option JsRegex) {p : Str} (hp : p ≠ [])
    (data : BackupData) (hbd : docBounded data = true) (ptr : FindReplacePointer)
    (hptr : (sceneCount data : Int) ≤ ptr.scene) :
    (match (docPositions p data).getLast? with
     | none => findPreviousMatchInternal compile p false data ptr = ⟨none, ptr, false⟩
     | some x => ∃ m, findPreviousMatchInternal compile p false data ptr =
           ⟨some m, ⟨(x.1 : Int), (x.2.1 : Int), (x.2.2 : Int)⟩, false⟩ ∧
         m.sceneIndex = x.1 ∧ m.blockIndex = x.2.1 ∧ m.matchIndex = x.2.2) := by
  cases hrevs : data.revisions with
  | nil =>
    simp only [docPositions, findPreviousMatchInternal, hrevs, List.getLast?_nil]
  | cons rev rest =>
    simp only [sceneCount, hrevs] at hptr
    simp only [docPositions, findPreviousMatchInternal, hrevs]
    rw [if_pos hptr]
    by_cases hlen0 : rev.scenes.length = 0
    · have hnil : rev.scenes = [] := List.length_eq_zero.mp hlen0
      rw [hnil]
      rw [if_pos (by norm_num)]
      exact rfl
    · rw [if_neg (by omega : ¬((rev.scenes.length : Int) - 1 < 0))]
      have hcl : clampNat ((rev.scenes.length : Int) - 1) = rev.scenes.length - 1 := by
        rw [clampNat]
        omega
      have hmax : jsMaxSafeInteger = ((9007199254740991 : Nat) : Int) := by
        norm_num [jsMaxSafeInteger]
      rw [hcl, hmax]
      have hb := scanScenesPrev_lit compile hp rev.scenes (rev.scenes.length - 1)
        9007199254740991 9007199254740991 (rev.scenes.length - 1) (Nat.le_refl _)
      rw [show rev.scenes.length - 1 + 1 = rev.scenes.length from by omega,
          List.take_length] at hb
      have hfil : (posOfScenes p rev.scenes 0).filter
          (fun x => posLt x (rev.scenes.length - 1, 9007199254740991,
            9007199254740991)) = posOfScenes p rev.scenes 0 := by
        apply List.filter_eq_self.mpr
        intro x hx
        have hxb := docBounded_spec hbd x (by rw [docPositions, hrevs]; exact hx)
        obtain ⟨_, hxlt, _⟩ := mem_posOfScenes p rev.scenes 0 x hx
        rw [posLt]
        dsimp only
        apply decide_eq_true
        omega
      rw [hfil] at hb
      cases hh : (posOfScenes p rev.scenes 0).getLast? with
      | none =>
        rw [hh] at hb
        dsimp only at hb
        rw [hb]
      | some x =>
        rw [hh] at hb
        dsimp only at hb
        obtain ⟨t, title, ht⟩ := hb
        rw [ht]
        dsimp only
        exact ⟨_, rfl, rfl, rfl, rfl⟩

theorem getLast?_none_nil {α : Type} {l : List α} (h : l.getLast? = none) : l = [] := by
  cases l with
  | nil => rfl
  | cons a l =>
    exfalso
    rw [List.getLast?_eq_getLast (a :: l) (by simp)] at h
    simp at h

theorem filter_posLt_dropLast :
    ∀ {P : List (Nat × Nat × Nat)}, P.Pairwise (fun x y => posLt x y = true) →
      ∀ {c x : Nat × Nat × Nat} {A : List (Nat × Nat × Nat)},
        P.filter (fun y => posLt y c) = A ++ [x] →
        P.filter (fun y => posLt y x) = A := by
  intro P
  induction P with
  | nil =>
    intro _ c x A h
    exact absurd h (by simp)
  | cons a P ih =>
    intro hsort c x A h
    by_cases ha : posLt a c = true
    · rw [show List.filter (fun y => posLt y c) (a :: P) =
            a :: List.filter (fun y => posLt y c) P from List.filter_cons_of_pos ha] at h
      cases A with
      | nil =>
        rw [List.nil_append] at h
        injection h with h1 h2
        subst h1
        have hga : posLt a a = false := by
          rw [posLt]
          apply decide_eq_false
          omega
        rw [List.filter_cons_of_neg (by simp [hga]), List.filter_eq_nil_iff]
        intro y hy
        have hay := List.rel_of_pairwise_cons hsort hy
        rw [posLt] at hay
        have hayP := of_decide_eq_true hay
        simp only [posLt, decide_eq_true_eq]
        push_neg
        omega
      | cons a2 A2 =>
        rw [List.cons_append] at h
        injection h with h1 h2
        subst h1
        have ihh := ih hsort.of_cons h2
        have hxP : x ∈ P := by
          have hmem : x ∈ List.filter (fun y => posLt y c) P := by
            rw [h2]
            exact List.mem_append_right A2 (List.mem_cons_self x [])
          exact List.mem_of_mem_filter hmem
        have hax := List.rel_of_pairwise_cons hsort hxP
        rw [show List.filter (fun y => posLt y x) (a :: P) =
              a :: List.filter (fun y => posLt y x) P from List.filter_cons_of_pos hax, ihh]
    · rw [List.filter_cons_of_neg (by simp [ha])] at h
      have ihh := ih hsort.of_cons h
      have hxfil : x ∈ List.filter (fun y => posLt y c) P := by
        rw [h]
        exact List.mem_append_right A (List.mem_cons_self x [])
      have hxc : posLt x c = true := (List.mem_filter.mp hxfil).2
      have hga : posLt a x = false := by
        rw [posLt] at hxc
        have h1 := of_decide_eq_true hxc
        rw [posLt]
        apply decide_eq_false
        intro hc
        apply ha
        rw [posLt]
        apply decide_eq_true
        omega
      rw [List.filter_cons_of_neg (by simp [hga])]
      exact ihh

theorem filter_posLt_of_full {P : List (Nat × Nat × Nat)}
    (hsort : P.Pairwise (fun x y => posLt x y = true))
    {x : Nat × Nat × Nat} {A : List (Nat × Nat × Nat)} (h : P = A ++ [x]) :
    P.filter (fun y => posLt y x) = A := by
  subst h
  rw [List.filter_append]
  have hx : posLt x x = false := by
    rw [posLt]
    apply decide_eq_false
    omega
  rw [show List.filter (fun y => posLt y x) [x] = [] from by simp [hx]]
  rw [List.append_nil]
  apply List.filter_eq_self.mpr
  intro y hy
  exact (List.pairwise_append.mp hsort).2.2 y hy x (List.mem_cons_self x [])

theorem collectPrev_go (compile : Str → Option JsRegex) {p : Str} (hp : p ≠ [])
    (data : BackupData) :
    ∀ (fuel : Nat) (ci cj co : Nat), ci < sceneCount data →
      ((docPositions p data).filter (fun y => posLt y (ci, cj, co))).length < fuel →
      collectPrevPositions compile p false data ⟨(ci : Int), (cj : Int), (co : Int)⟩ fuel =
        ((docPositions p data).filter (fun y => posLt y (ci, cj, co))).reverse := by
  intro fuel
  induction fuel with
  | zero => intro ci cj co _ h; exact absurd h (Nat.not_lt_zero _)
  | succ fuel ih =>
    intro ci cj co hci hfuel
    rw [collectPrevPositions]
    have hstep := findPrev_lit_step compile hp data ci cj co hci
    cases hh : ((docPositions p data).filter (fun y => posLt y (ci, cj, co))).getLast? with
    | none =>
      rw [hh] at hstep
      dsimp only at hstep
      rw [hstep]
      dsimp only
      rw [getLast?_none_nil hh]
      rfl
    | some x =>
      rw [hh] at hstep
      dsimp only at hstep
      obtain ⟨m, hm, h1, h2, h3⟩ := hstep
      rw [hm]
      dsimp only
      have hne : (docPositions p data).filter (fun y => posLt y (ci, cj, co)) ≠ [] := by
        intro he
        rw [he] at hh
        simp at hh
      obtain ⟨A, hA⟩ : ∃ A, (docPositions p data).filter (fun y => posLt y (ci, cj, co)) =
          A ++ [x] := by
        refine ⟨((docPositions p data).filter (fun y => posLt y (ci, cj, co))).dropLast, ?_⟩
        have hdl := List.dropLast_append_getLast hne
        rw [List.getLast?_eq_getLast _ hne, Option.some_inj] at hh
        rw [hh] at hdl
        exact hdl.symm
      have htail := filter_posLt_dropLast (docPositions_pairwise p data) hA
      have hxmem : x ∈ docPositions p data :=
        List.mem_of_mem_filter (getLast?_mem_list hh)
      have hxlt : x.1 < sceneCount data := by
        cases hrevs : data.revisions with
        | nil => rw [docPositions, hrevs] at hxmem; simp at hxmem
        | cons rev rest =>
          rw [docPositions, hrevs] at hxmem
          obtain ⟨_, hlt, _⟩ := mem_posOfScenes p rev.scenes 0 x hxmem
          simp only [sceneCount, hrevs]
          omega
      have hih := ih x.1 x.2.1 x.2.2 hxlt
        (by rw [htail]; rw [hA] at hfuel
            simp only [List.length_append, List.length_cons, List.length_nil] at hfuel
            omega)
      rw [h1, h2, h3, hih, htail, hA, List.reverse_append]
      rfl

theorem collectPrev_default (compile : Str → Option JsRegex) {p : Str} (hp : p ≠ [])
    (data : BackupData) (hbd : docBounded data = true) (ptr0 : FindReplacePointer)
    (hptr : (sceneCount data : Int) ≤ ptr0.scene) :
    ∀ fuel : Nat, (docPositions p data).length < fuel →
      collectPrevPositions compile p false data ptr0 fuel =
        (docPositions p data).reverse := by
  intro fuel hfuel
  cases fuel with
  | zero => exact absurd hfuel (Nat.not_lt_zero _)
  | succ fuel =>
    rw [collectPrevPositions]
    have hstep := findPrev_default_step compile hp data hbd ptr0 hptr
    cases hh : (docPositions p data).getLast? with
    | none =>
      rw [hh] at hstep
      dsimp only at hstep
      rw [hstep]
      dsimp only
      rw [getLast?_none_nil hh]
      rfl
    | some x =>
      rw [hh] at hstep
      dsimp only at hstep
      obtain ⟨m, hm, h1, h2, h3⟩ := hstep
      rw [hm]
      dsimp only
      have hne : docPositions p data ≠ [] := by
        intro he
        rw [he] at hh
        simp at hh
      obtain ⟨A, hA⟩ : ∃ A, docPositions p data = A ++ [x] := by
        refine ⟨(docPositions p data).dropLast, ?_⟩
        have hdl := List.dropLast_append_getLast hne
        rw [List.getLast?_eq_getLast _ hne, Option.some_inj] at hh
        rw [hh] at hdl
        exact hdl.symm
      have hAfil := filter_posLt_of_full (docPositions_pairwise p data) hA
      have hxmem : x ∈ docPositions p data := getLast?_mem_list hh
      have hxlt : x.1 < sceneCount data := by
        cases hrevs : data.revisions with
        | nil => rw [docPositions, hrevs] at hxmem; simp at hxmem
        | cons rev rest =>
          rw [docPositions, hrevs] at hxmem
          obtain ⟨_, hlt, _⟩ := mem_posOfScenes p rev.scenes 0 x hxmem
          simp only [sceneCount, hrevs]
          omega
      have hih := collectPrev_go compile hp data fuel x.1 x.2.1 x.2.2 hxlt
        (by rw [hAfil]; rw [hA] at hfuel
            simp only [List.length_append, List.length_cons, List.length_nil] at hfuel
            omega)
      rw [h1, h2, h3, hih, hAfil, hA, List.reverse_append]
      rfl

theorem filter_nextGE_origin (P : List (Nat × Nat × Nat)) :
    P.filter (nextGE (0, 0, 0)) = P := by
  apply List.filter_eq_self.mpr
  intro x _
  rw [nextGE]
  dsimp only
  apply decide_eq_true
  omega

/-- C1 (amended): for a nonempty literal pattern whose occurrences never
overlap within a block, on a record whose block counts stay below
MAX_SAFE_INTEGER, the positions visited by repeated findNext from the origin
are exactly the reverse of the positions visited by repeated findPrevious
from any cursor at or past the scene count (the end-of-document default). -/
theorem spec_C1 (compile : Str → Option JsRegex) (p : Str) (data : BackupData)
    (ptr0 : FindReplacePointer) (fuel : Nat)
    (hp : p ≠ []) (hno : nonOverlapping p data = true) (hbd : docBounded data = true)
    (hptr : (sceneCount data : Int) ≤ ptr0.scene)
    (hfuel : (docPositions p data).length < fuel) :
    collectNextPositions compile p false data ⟨0, 0, 0⟩ fuel =
      (collectPrevPositions compile p false data ptr0 fuel).reverse := by
  have hnext := collectNext_go compile hp data (nonOverlapping_spec hno) fuel 0 0 0
    (by rw [filter_nextGE_origin]; exact hfuel)
  rw [filter_nextGE_origin] at hnext
  rw [Nat.cast_zero] at hnext
  rw [hnext, collectPrev_default compile hp data hbd ptr0 hptr fuel hfuel,
      List.reverse_reverse]

/-- Witness for C1 on the aaa record with the non-overlapping pattern a. -/
theorem spec_C1_witness :
    (str "a" ≠ [] ∧ nonOverlapping (str "a") dataAaa = true ∧
     docBounded dataAaa = true ∧ (sceneCount dataAaa : Int) ≤ (1 : Int) ∧
     (docPositions (str "a") dataAaa).length < 4) ∧
    collectNextPositions compileNone (str "a") false dataAaa ⟨0, 0, 0⟩ 4 =
      (collectPrevPositions compileNone (str "a") false dataAaa ⟨1, 0, 0⟩ 4).reverse :=
  ⟨⟨by decide, by decide, by decide, by decide, by decide⟩,
   spec_C1 compileNone (str "a") dataAaa ⟨1, 0, 0⟩ 4 (by decide) (by decide) (by decide)
     (by decide) (by decide)⟩
